import Mathlib

/-!
Exponential backoff: the packages `backoff` and `backoff/v2`.

A shallow embedding of `src/backoff.go` and `src/v2/backoff.go`.

Modelling conventions
* `time.Duration` and `int64` values are `Int`s; the durations computed here
  are results of `toDuration`, which lie in the `int64` range.
* `float64` is the type `F64`: not-a-number, the two infinities and the
  finite values, with IEEE 754 binary64 arithmetic in round-to-nearest-even
  (`round64`).  The sign of a zero is not kept: nothing in these packages
  observes it.  Every operation is rounded on its own, and a conversion to
  `int64` of a value that does not fit gives the least `int64`, as the
  compiled code does on amd64.
* `rand.Float64()` is an explicit argument `rnd`.
* `retries` keeps the Go type `int`, so it is an `Int`.
* Go's `error` is a type parameter `ε` with its `Error()` method passed as
  `msg : ε → String`; a nil error is `none`.
-/

set_option linter.dupNamespace false

namespace backoff

/-- One second, `time.Second`, in nanoseconds. -/
def Second : Int := 1000000000

/-- One millisecond, `time.Millisecond`, in nanoseconds. -/
def Millisecond : Int := 1000000

/-- A `float64` value, up to the sign of zero. -/
inductive F64 where
  | nan : F64
  | ninf : F64
  | fin (q : ℚ) : F64
  | pinf : F64
  deriving DecidableEq

/-- Rounding of a rational to the nearest integer, ties to the even one. -/
def roundHalfEven (x : ℚ) : Int :=
  if x - (Int.floor x : ℚ) < 1 / 2 then Int.floor x
  else if 1 / 2 < x - (Int.floor x : ℚ) then Int.floor x + 1
  else if Int.floor x % 2 = 0 then Int.floor x else Int.floor x + 1

/-- The binary exponent that fixes the spacing of the `float64` values around
`q`: `⌊log₂ |q|⌋`, and `-1022` in the subnormal range. -/
def exponent (q : ℚ) : Int := max (Int.log 2 |q|) (-1022)

/-- The unit in the last place around `q`: the spacing of `float64` values
with 53 significant bits. -/
def ulp (q : ℚ) : ℚ := (2 : ℚ) ^ (exponent q - 52)

/-- The rational `q` rounded to the `float64` grid, before the test for
overflow. -/
def roundFin (q : ℚ) : ℚ := (roundHalfEven (q / ulp q) : ℚ) * ulp q

/-- The `float64` nearest to the rational `q` (IEEE 754 round-to-nearest,
ties to even); results of magnitude `2^1024` and more are infinite. -/
def round64 (q : ℚ) : F64 :=
  if (2 : ℚ) ^ (1024 : Nat) ≤ roundFin q then F64.pinf
  else if roundFin q ≤ -(2 : ℚ) ^ (1024 : Nat) then F64.ninf
  else F64.fin (roundFin q)

/-- A decimal constant of the source, such as `1.6`, as a `float64`. -/
def F64.lit (q : ℚ) : F64 := round64 q

/-- The conversion `float64(i)` of an integer. -/
def F64.ofInt (i : Int) : F64 := round64 (i : ℚ)

/-- Negation. -/
def F64.neg : F64 → F64
  | F64.nan => F64.nan
  | F64.ninf => F64.pinf
  | F64.fin q => F64.fin (-q)
  | F64.pinf => F64.ninf

/-- The product `x * y` of two `float64` values. -/
def F64.mul : F64 → F64 → F64
  | F64.nan, _ => F64.nan
  | _, F64.nan => F64.nan
  | F64.fin a, F64.fin b => round64 (a * b)
  | F64.fin a, F64.pinf => if a = 0 then F64.nan else if 0 < a then F64.pinf else F64.ninf
  | F64.fin a, F64.ninf => if a = 0 then F64.nan else if 0 < a then F64.ninf else F64.pinf
  | F64.pinf, F64.fin b => if b = 0 then F64.nan else if 0 < b then F64.pinf else F64.ninf
  | F64.ninf, F64.fin b => if b = 0 then F64.nan else if 0 < b then F64.ninf else F64.pinf
  | F64.pinf, F64.pinf => F64.pinf
  | F64.pinf, F64.ninf => F64.ninf
  | F64.ninf, F64.pinf => F64.ninf
  | F64.ninf, F64.ninf => F64.pinf

/-- The sum `x + y` of two `float64` values. -/
def F64.add : F64 → F64 → F64
  | F64.nan, _ => F64.nan
  | _, F64.nan => F64.nan
  | F64.fin a, F64.fin b => round64 (a + b)
  | F64.fin _, F64.pinf => F64.pinf
  | F64.fin _, F64.ninf => F64.ninf
  | F64.pinf, F64.fin _ => F64.pinf
  | F64.ninf, F64.fin _ => F64.ninf
  | F64.pinf, F64.pinf => F64.pinf
  | F64.ninf, F64.ninf => F64.ninf
  | F64.pinf, F64.ninf => F64.nan
  | F64.ninf, F64.pinf => F64.nan

/-- The difference `x - y` of two `float64` values. -/
def F64.sub (x y : F64) : F64 := F64.add x (F64.neg y)

/-- The comparison `x < y` of two `float64` values; it is false when either
is not a number.  The source's `x > y` is `F64.lt y x`. -/
def F64.lt : F64 → F64 → Bool
  | F64.nan, _ => false
  | _, F64.nan => false
  | F64.fin a, F64.fin b => decide (a < b)
  | F64.fin _, F64.pinf => true
  | F64.fin _, F64.ninf => false
  | F64.ninf, F64.ninf => false
  | F64.ninf, _ => true
  | F64.pinf, _ => false

/-- The comparison `x <= y` of two `float64` values; it is false when either
is not a number.  The source's `x >= y` is `F64.le y x`. -/
def F64.le : F64 → F64 → Bool
  | F64.nan, _ => false
  | _, F64.nan => false
  | F64.fin a, F64.fin b => decide (a ≤ b)
  | F64.fin _, F64.pinf => true
  | F64.fin _, F64.ninf => false
  | F64.ninf, _ => true
  | F64.pinf, F64.pinf => true
  | F64.pinf, _ => false

/-- The `float64` values that are `+Inf` or a non-negative number; the
number is a fixed point of the rounding, as every `float64` is. -/
def F64.NonnegFloat (x : F64) : Prop :=
  x = F64.pinf ∨ ∃ q, x = F64.fin q ∧ 0 ≤ q ∧ round64 q = F64.fin q

/-- The `float64` values that are `+Inf` or a number of at least `c`. -/
def F64.AtLeast (c : ℚ) (x : F64) : Prop :=
  x = F64.pinf ∨ ∃ q, x = F64.fin q ∧ c ≤ q ∧ round64 q = F64.fin q

/-- Conversion `time.Duration(x)` of a `float64` to an `int64`: truncation
toward zero, and the least `int64` when the truncated value does not fit or
`x` is not finite. -/
def toDuration : F64 → Int
  | F64.fin q =>
    if -(2 : Int) ^ (63 : Nat) ≤ (if 0 ≤ q then Int.floor q else Int.ceil q) ∧
        (if 0 ≤ q then Int.floor q else Int.ceil q) < (2 : Int) ^ (63 : Nat) then
      (if 0 ≤ q then Int.floor q else Int.ceil q)
    else -(2 : Int) ^ (63 : Nat)
  | _ => -(2 : Int) ^ (63 : Nat)

/-- The envelope loop shared by both packages
`for backoff < max && retries > 0 { backoff *= Multiplier; retries-- }`,
run on the loop variables `(backoff, retries)`; it returns their final
values. -/
def envelopeLoop (mult max : F64) : Nat → F64 → F64 × Nat
  | 0, b => (b, 0)
  | n + 1, b => if F64.lt b max then envelopeLoop mult max n (F64.mul b mult) else (b, n + 1)

/-- The number of times the envelope loop runs its body
`backoff *= Multiplier; retries--` when entered with the given `retries` and
`backoff`: the decrease of the loop variable `retries`. -/
def multiplications (mult max : F64) (retries : Nat) (b : F64) : Nat :=
  retries - (envelopeLoop mult max retries b).2

/-- The clamp `if backoff > max { backoff = max }`. -/
def clamp (b max : F64) : F64 := if F64.lt max b then max else b

/-- The value `b` multiplied `n` times by `mult` in `float64` arithmetic,
with no test against a maximum. -/
def floatPow (b mult : F64) : Nat → F64
  | 0 => b
  | n + 1 => floatPow (F64.mul b mult) mult n

/-- Lines 88-98 of `src/backoff.go` and 64-74 of `src/v2/backoff.go`, which
are the same text: the value of the local `backoff` after the envelope
loop, the clamp `if backoff > max { backoff = max }` and the jitter
`backoff *= 1 + Jitter*(rand.Float64()*2-1)`. -/
def jittered (base : Int) (mult jitter : F64) (maxDelay : Int) (rnd : F64) (retries : Int) :
    F64 :=
  let max : F64 := F64.ofInt maxDelay
  let b := (envelopeLoop mult max retries.toNat (F64.ofInt base)).1
  let b1 := clamp b max
  F64.mul b1
    (F64.add (F64.fin 1) (F64.mul jitter (F64.sub (F64.mul rnd (F64.fin 2)) (F64.fin 1))))

/-- Configuration record `Config` of `src/backoff.go`. -/
structure Config where
  BaseDelay : Int
  Multiplier : F64
  Jitter : F64
  MaxDelay : Int
  deriving DecidableEq

/-- The package variable `DefaultConfig`. -/
def DefaultConfig : Config :=
  { BaseDelay := 1 * Second, Multiplier := F64.lit (8 / 5), Jitter := F64.lit (1 / 5),
    MaxDelay := 120 * Second }

/-- Function `fillDefaultConfig`; a nil pointer is `none`.  The test
`x == 0` on a `float64` is `x = F64.fin 0`. -/
def fillDefaultConfig (cfg : Option Config) : Config :=
  match cfg with
  | none => DefaultConfig
  | some c =>
    let c1 := if c.BaseDelay = 0 then { c with BaseDelay := DefaultConfig.BaseDelay } else c
    let c2 := if c1.Jitter = F64.fin 0 then { c1 with Jitter := DefaultConfig.Jitter } else c1
    let c3 := if c2.MaxDelay = 0 then { c2 with MaxDelay := DefaultConfig.MaxDelay } else c2
    if c3.Multiplier = F64.fin 0 then { c3 with Multiplier := DefaultConfig.Multiplier } else c3

/-- The type `Exponential`, holding the configuration it points to. -/
structure Exponential where
  Config : Config
  deriving DecidableEq

/-- The package variable `DefaultExponential`. -/
def DefaultExponential : Exponential := { Config := DefaultConfig }

/-- Function `NewExponential`: the filled configuration is assigned to the
local `cfg` and the returned value points to `DefaultConfig`. -/
def NewExponential (cfg : Option Config) : Exponential :=
  let _cfg := fillDefaultConfig cfg
  { Config := DefaultConfig }

/-- Method `(*Exponential).Backoff`, with the random draw `rnd` explicit. -/
def Exponential.Backoff (bc : Exponential) (rnd : F64) (retries : Int) : Int :=
  if retries = 0 then bc.Config.BaseDelay
  else
    let b := jittered bc.Config.BaseDelay bc.Config.Multiplier bc.Config.Jitter
      bc.Config.MaxDelay rnd retries
    if F64.lt b (F64.fin 0) then 0 else toDuration b

namespace v2

/-- The struct `Backoff` of `src/v2/backoff.go`. -/
structure Backoff where
  BaseDelay : Int
  Multiplier : F64
  Jitter : F64
  MaxDelay : Int
  deriving DecidableEq

/-- The in-place defaulting at the head of `(*Backoff).Backoff`. -/
def Backoff.fill (bo : Backoff) : Backoff :=
  let b1 := if bo.BaseDelay = 0 then { bo with BaseDelay := Second } else bo
  let b2 := if b1.MaxDelay = 0 then { b1 with MaxDelay := 30 * Second } else b1
  if F64.lt b2.Multiplier (F64.fin 1) then { b2 with Multiplier := F64.lit (8 / 5) } else b2

/-- Method `(*Backoff).Backoff`: it returns the delay together with the
receiver as the call leaves it. -/
def Backoff.Backoff (bo : Backoff) (rnd : F64) (retries : Int) : Int × Backoff :=
  let bo1 := bo.fill
  if retries = 0 then (bo1.BaseDelay, bo1)
  else
    let b := jittered bo1.BaseDelay bo1.Multiplier bo1.Jitter bo1.MaxDelay rnd retries
    (if F64.lt b (F64.fin 0) then 0 else toDuration b, bo1)


/-- The substring tested by `Invoke`. -/
def certMessage : String := "x509: certificate signed by unknown authority"

/-- Whether `sub` occurs in `s` as a contiguous block, on character lists. -/
def containsChars (sub : List Char) : List Char → Bool
  | [] => sub.isPrefixOf []
  | c :: t => sub.isPrefixOf (c :: t) || containsChars sub t

/-- The library function `strings.Contains`. -/
def stringsContains (s sub : String) : Bool := containsChars sub.data s.data

/-- What one run of `Invoke` did: how often the operation was called, the
arguments of the calls to the retryer and the durations passed to `Sleep`,
both in order. -/
structure Log (ε : Type) where
  calls : Nat
  asked : List (Nat × ε)
  slept : List Int

/-- The loop of `Invoke`, from attempt `n` on.  The operation and `Sleep`
are given by their results: `call n` is what the call made in iteration `n`
returns and `sleep n d` what `Sleep(ctx, d)` returns in iteration `n`
(`none` is a nil error).  A nil `retryer` is `none`.  Each iteration uses
one unit of `fuel`; the result is `none` when the fuel runs out before the
loop returns. -/
def Invoke.loop {ε : Type} (msg : ε → String) (call : Nat → Option ε)
    (sleep : Nat → Int → Option ε) (retryer : Option (Nat → ε → Int × Bool)) :
    Nat → Nat → Log ε → Option (Option ε × Log ε)
  | 0, _, _ => none
  | fuel + 1, n, log =>
    let log1 : Log ε := { log with calls := log.calls + 1 }
    match call n with
    | none => some (none, log1)
    | some err =>
      match retryer with
      | none => some (some err, log1)
      | some r =>
        if stringsContains (msg err) certMessage then some (some err, log1)
        else
          let res := r n err
          let log2 : Log ε := { log1 with asked := log1.asked ++ [(n, err)] }
          if !res.2 then some (some err, log2)
          else
            let log3 : Log ε := { log2 with slept := log2.slept ++ [res.1] }
            match sleep n res.1 with
            | some c => some (some c, log3)
            | none => Invoke.loop msg call sleep retryer fuel (n + 1) log3

/-- Function `Invoke`: the loop started at `n := 0`. -/
def Invoke {ε : Type} (msg : ε → String) (call : Nat → Option ε)
    (sleep : Nat → Int → Option ε) (retryer : Option (Nat → ε → Int × Bool))
    (fuel : Nat) : Option (Option ε × Log ε) :=
  Invoke.loop msg call sleep retryer fuel 0 { calls := 0, asked := [], slept := [] }

/-- The log of the loop of `Invoke` once it has returned or has run `fuel`
iterations, whichever comes first: the same loop as `Invoke.loop`, observed
also on runs that have not returned yet. -/
def Invoke.logAfter {ε : Type} (msg : ε → String) (call : Nat → Option ε)
    (sleep : Nat → Int → Option ε) (retryer : Option (Nat → ε → Int × Bool)) :
    Nat → Nat → Log ε → Log ε
  | 0, _, log => log
  | fuel + 1, n, log =>
    let log1 : Log ε := { log with calls := log.calls + 1 }
    match call n with
    | none => log1
    | some err =>
      match retryer with
      | none => log1
      | some r =>
        if stringsContains (msg err) certMessage then log1
        else
          let res := r n err
          let log2 : Log ε := { log1 with asked := log1.asked ++ [(n, err)] }
          if !res.2 then log2
          else
            let log3 : Log ε := { log2 with slept := log2.slept ++ [res.1] }
            match sleep n res.1 with
            | some _ => log3
            | none => Invoke.logAfter msg call sleep retryer fuel (n + 1) log3

end v2



/-! ## Rounding to the nearest integer -/

theorem floor_le_roundHalfEven (x : ℚ) : Int.floor x ≤ roundHalfEven x := by
  unfold roundHalfEven
  split_ifs <;> omega

theorem roundHalfEven_le_floor_add_one (x : ℚ) : roundHalfEven x ≤ Int.floor x + 1 := by
  unfold roundHalfEven
  split_ifs <;> omega

theorem roundHalfEven_intCast (n : Int) : roundHalfEven (n : ℚ) = n := by
  simp [roundHalfEven]

theorem roundHalfEven_mono {a b : ℚ} (h : a ≤ b) : roundHalfEven a ≤ roundHalfEven b := by
  have hfl : Int.floor a ≤ Int.floor b := Int.floor_mono h
  rcases lt_or_eq_of_le hfl with hlt | heq
  · calc roundHalfEven a ≤ Int.floor a + 1 := roundHalfEven_le_floor_add_one a
      _ ≤ Int.floor b := hlt
      _ ≤ roundHalfEven b := floor_le_roundHalfEven b
  · unfold roundHalfEven
    rw [← heq]
    split_ifs <;> first | omega | (exfalso; linarith)

theorem roundHalfEven_eq_of_near {x : ℚ} {n : Int} (h : |x - (n : ℚ)| < 1 / 2) :
    roundHalfEven x = n := by
  rw [abs_lt] at h
  obtain ⟨h1, h2⟩ := h
  by_cases hx : (n : ℚ) ≤ x
  · have hf : Int.floor x = n := by
      rw [Int.floor_eq_iff]
      constructor
      · exact hx
      · linarith
    unfold roundHalfEven
    rw [hf, if_pos (by linarith)]
  · have hx2 : x < (n : ℚ) := not_le.mp hx
    have hf : Int.floor x = n - 1 := by
      rw [Int.floor_eq_iff]
      push_cast
      constructor <;> linarith
    unfold roundHalfEven
    rw [hf]
    push_cast
    rw [if_neg (by linarith), if_pos (by linarith)]
    omega

theorem roundHalfEven_neg (x : ℚ) : roundHalfEven (-x) = -roundHalfEven x := by
  by_cases hx : ((Int.floor x : Int) : ℚ) = x
  · rw [← hx, ← Int.cast_neg, roundHalfEven_intCast, roundHalfEven_intCast]
  · have h1 : ((Int.floor x : Int) : ℚ) < x := lt_of_le_of_ne (Int.floor_le x) hx
    have h2 : x < ((Int.floor x : Int) : ℚ) + 1 := Int.lt_floor_add_one x
    have hf : Int.floor (-x) = -Int.floor x - 1 := by
      rw [Int.floor_eq_iff]
      push_cast
      constructor <;> linarith
    unfold roundHalfEven
    rw [hf]
    push_cast
    split_ifs <;> first | omega | (exfalso; linarith)

theorem roundHalfEven_nonneg {x : ℚ} (h : 0 ≤ x) : 0 ≤ roundHalfEven x := by
  have := roundHalfEven_mono h
  rwa [show ((0 : ℚ)) = ((0 : Int) : ℚ) by norm_num, roundHalfEven_intCast] at this

theorem roundHalfEven_le_of_le_intCast {x : ℚ} {n : Int} (h : x ≤ (n : ℚ)) :
    roundHalfEven x ≤ n := by
  have := roundHalfEven_mono h
  rwa [roundHalfEven_intCast] at this

theorem le_roundHalfEven_of_intCast_le {x : ℚ} {n : Int} (h : (n : ℚ) ≤ x) :
    n ≤ roundHalfEven x := by
  have := roundHalfEven_mono h
  rwa [roundHalfEven_intCast] at this


/-! ## Rounding to the `float64` grid -/

theorem two_zpow_eq_intCast (d : Int) (hd : 0 ≤ d) :
    (2 : ℚ) ^ d = (((2 : Int) ^ d.toNat : Int) : ℚ) := by
  obtain ⟨n, rfl⟩ := Int.eq_ofNat_of_zero_le hd
  simp [zpow_natCast]

theorem two_zpow_eq_mul (k e : Int) (h : e ≤ k) :
    (2 : ℚ) ^ k = (((2 : Int) ^ (k - e).toNat : Int) : ℚ) * (2 : ℚ) ^ e := by
  rw [← two_zpow_eq_intCast (k - e) (by omega), ← zpow_add₀ (by norm_num : (2 : ℚ) ≠ 0)]
  congr 1
  ring

theorem ulp_pos (q : ℚ) : 0 < ulp q := zpow_pos (by norm_num) _

theorem exponent_neg (q : ℚ) : exponent (-q) = exponent q := by
  simp [exponent]

theorem ulp_neg (q : ℚ) : ulp (-q) = ulp q := by
  simp [ulp, exponent_neg]

theorem exponent_ge (q : ℚ) : -1022 ≤ exponent q := le_max_right _ _

theorem abs_lt_two_zpow_exponent_succ (q : ℚ) : |q| < (2 : ℚ) ^ (exponent q + 1) := by
  have h1 : |q| < ((2 : Nat) : ℚ) ^ (Int.log 2 |q| + 1) :=
    Int.lt_zpow_succ_log_self (by norm_num) |q|
  have h2 : (2 : ℚ) ^ (Int.log 2 |q| + 1) ≤ (2 : ℚ) ^ (exponent q + 1) :=
    zpow_le_zpow_right₀ (by norm_num) (add_le_add_right (le_max_left _ _) 1)
  simp only [Nat.cast_ofNat] at h1
  exact lt_of_lt_of_le h1 h2

theorem two_zpow_exponent_le_abs {q : ℚ} (hq : q ≠ 0) (h : -1022 < exponent q) :
    (2 : ℚ) ^ exponent q ≤ |q| := by
  have he : exponent q = Int.log 2 |q| := by
    unfold exponent at h ⊢
    rcases le_total (Int.log 2 |q|) (-1022) with h1 | h1
    · rw [max_eq_right h1] at h
      exact absurd h (lt_irrefl _)
    · exact max_eq_left h1
  rw [he]
  have := Int.zpow_log_le_self (b := 2) (by norm_num) (abs_pos.mpr hq)
  simpa using this

theorem exponent_mono {x y : ℚ} (hx : x ≠ 0) (h : |x| ≤ |y|) : exponent x ≤ exponent y :=
  max_le_max (Int.log_mono_right (abs_pos.mpr hx) h) (le_refl _)

theorem roundFin_zero : roundFin 0 = 0 := by
  have h : roundHalfEven ((0 : Int) : ℚ) = 0 := roundHalfEven_intCast 0
  simp only [Int.cast_zero] at h
  simp [roundFin, h]

theorem roundFin_neg (q : ℚ) : roundFin (-q) = -roundFin q := by
  unfold roundFin
  rw [ulp_neg, neg_div, roundHalfEven_neg]
  push_cast
  ring

theorem roundFin_nonneg {q : ℚ} (h : 0 ≤ q) : 0 ≤ roundFin q :=
  mul_nonneg (Int.cast_nonneg.mpr (roundHalfEven_nonneg (div_nonneg h (ulp_pos q).le)))
    (ulp_pos q).le

theorem roundFin_le_of_le_mul_ulp {q : ℚ} {N : Int} (h : q ≤ (N : ℚ) * ulp q) :
    roundFin q ≤ (N : ℚ) * ulp q := by
  unfold roundFin
  apply mul_le_mul_of_nonneg_right _ (ulp_pos q).le
  exact_mod_cast roundHalfEven_le_of_le_intCast ((div_le_iff₀ (ulp_pos q)).mpr h)

theorem mul_ulp_le_roundFin {q : ℚ} {N : Int} (h : (N : ℚ) * ulp q ≤ q) :
    (N : ℚ) * ulp q ≤ roundFin q := by
  unfold roundFin
  apply mul_le_mul_of_nonneg_right _ (ulp_pos q).le
  exact_mod_cast le_roundHalfEven_of_intCast_le ((le_div_iff₀ (ulp_pos q)).mpr h)

theorem roundFin_mono_pos {x y : ℚ} (hx : 0 < x) (h : x ≤ y) : roundFin x ≤ roundFin y := by
  have hy : 0 < y := lt_of_lt_of_le hx h
  have hex : exponent x ≤ exponent y :=
    exponent_mono hx.ne' (by rw [abs_of_pos hx, abs_of_pos hy]; exact h)
  rcases lt_or_eq_of_le hex with hlt | heq
  · have hB1 : x ≤ (2 : ℚ) ^ exponent y := by
      have h1 := abs_lt_two_zpow_exponent_succ x
      rw [abs_of_pos hx] at h1
      have h2 : (2 : ℚ) ^ (exponent x + 1) ≤ (2 : ℚ) ^ exponent y :=
        zpow_le_zpow_right₀ (by norm_num) (by omega)
      linarith
    have hB2 : (2 : ℚ) ^ exponent y ≤ y := by
      have := two_zpow_exponent_le_abs hy.ne' (lt_of_le_of_lt (exponent_ge x) hlt)
      rwa [abs_of_pos hy] at this
    have e1 : (2 : ℚ) ^ exponent y =
        (((2 : Int) ^ (exponent y - (exponent x - 52)).toNat : Int) : ℚ) * ulp x :=
      two_zpow_eq_mul (exponent y) (exponent x - 52) (by omega)
    have e2 : (2 : ℚ) ^ exponent y =
        (((2 : Int) ^ (exponent y - (exponent y - 52)).toNat : Int) : ℚ) * ulp y :=
      two_zpow_eq_mul (exponent y) (exponent y - 52) (by omega)
    have h1 : roundFin x ≤ (2 : ℚ) ^ exponent y := by
      rw [e1]
      exact roundFin_le_of_le_mul_ulp (by rw [← e1]; exact hB1)
    have h2 : (2 : ℚ) ^ exponent y ≤ roundFin y := by
      rw [e2]
      exact mul_ulp_le_roundFin (by rw [← e2]; exact hB2)
    linarith
  · unfold roundFin ulp
    rw [heq]
    apply mul_le_mul_of_nonneg_right _ (zpow_pos (by norm_num) _).le
    exact_mod_cast roundHalfEven_mono
      (div_le_div_of_nonneg_right h (zpow_pos (by norm_num) _).le)

/-- Rounding to the `float64` grid is monotone. -/
theorem roundFin_mono {x y : ℚ} (h : x ≤ y) : roundFin x ≤ roundFin y := by
  rcases lt_trichotomy x 0 with hx | hx | hx
  · rcases lt_or_le y 0 with hy | hy
    · have := roundFin_mono_pos (neg_pos.mpr hy) (neg_le_neg h)
      rw [roundFin_neg, roundFin_neg] at this
      linarith
    · have h1 := roundFin_nonneg (neg_nonneg.mpr hx.le)
      rw [roundFin_neg] at h1
      linarith [roundFin_nonneg hy]
  · subst hx
    rw [roundFin_zero]
    exact roundFin_nonneg h
  · exact roundFin_mono_pos hx h


/-- A rational `n * 2^k` with fewer than 54 significant bits and `k ≥ -1074`
lies on the `float64` grid: rounding leaves it as it is. -/
theorem roundFin_of_grid (q : ℚ) (n k : Int) (hq : q = (n : ℚ) * (2 : ℚ) ^ k)
    (hn : |n| < 9007199254740992) (hk : -1074 ≤ k) : roundFin q = q := by
  by_cases h0 : q = 0
  · rw [h0, roundFin_zero]
  · have hpos : (0 : ℚ) < (2 : ℚ) ^ k := zpow_pos (by norm_num) _
    have habs : |q| < (2 : ℚ) ^ (k + 53) := by
      have hn2 : |(n : ℚ)| < 9007199254740992 := by exact_mod_cast hn
      have h53 : (2 : ℚ) ^ (k + 53) = (2 : ℚ) ^ k * 9007199254740992 := by
        rw [zpow_add₀ (by norm_num : (2 : ℚ) ≠ 0)]
        norm_num
      rw [hq, abs_mul, abs_of_pos hpos, h53, mul_comm]
      exact mul_lt_mul_of_pos_left hn2 hpos
    have hlog : Int.log 2 |q| < k + 53 := by
      have := (Int.lt_zpow_iff_log_lt (b := 2) (by norm_num) (abs_pos.mpr h0)).mp
        (by simpa using habs)
      exact this
    have hexp : exponent q - 52 ≤ k := by
      have : exponent q ≤ k + 52 := max_le (by omega) (by omega)
      omega
    have e : (2 : ℚ) ^ k =
        (((2 : Int) ^ (k - (exponent q - 52)).toNat : Int) : ℚ) * ulp q :=
      two_zpow_eq_mul k (exponent q - 52) hexp
    have hgrid : q = ((n * (2 : Int) ^ (k - (exponent q - 52)).toNat : Int) : ℚ) * ulp q := by
      rw [Int.cast_mul, mul_assoc, ← e]
      exact hq
    have hdiv : q / ulp q = ((n * (2 : Int) ^ (k - (exponent q - 52)).toNat : Int) : ℚ) := by
      rw [div_eq_iff (ulp_pos q).ne']
      exact hgrid
    unfold roundFin
    rw [hdiv, roundHalfEven_intCast]
    exact hgrid.symm

theorem abs_roundHalfEven_div_ulp_le (q : ℚ) :
    |roundHalfEven (q / ulp q)| ≤ 9007199254740992 := by
  have h := abs_lt_two_zpow_exponent_succ q
  have hu : (2 : ℚ) ^ (exponent q + 1) = 9007199254740992 * ulp q := by
    unfold ulp
    rw [show exponent q + 1 = 53 + (exponent q - 52) by ring,
      zpow_add₀ (by norm_num : (2 : ℚ) ≠ 0)]
    norm_num
  rw [hu, abs_lt] at h
  have h1 : ((-9007199254740992 : Int) : ℚ) ≤ q / ulp q := by
    rw [le_div_iff₀ (ulp_pos q)]
    push_cast
    linarith [h.1]
  have h2 : q / ulp q ≤ ((9007199254740992 : Int) : ℚ) := by
    rw [div_le_iff₀ (ulp_pos q)]
    push_cast
    linarith [h.2]
  rw [abs_le]
  exact ⟨le_roundHalfEven_of_intCast_le h1, roundHalfEven_le_of_le_intCast h2⟩

/-- A rounded value is a fixed point of the rounding. -/
theorem roundFin_idem (q : ℚ) : roundFin (roundFin q) = roundFin q := by
  have hb := abs_roundHalfEven_div_ulp_le q
  have he := exponent_ge q
  rcases lt_or_eq_of_le hb with hlt | heq
  · exact roundFin_of_grid (roundFin q) (roundHalfEven (q / ulp q)) (exponent q - 52) rfl hlt
      (by omega)
  · have hcase : roundHalfEven (q / ulp q) = 9007199254740992 ∨
        roundHalfEven (q / ulp q) = -9007199254740992 := by
      rcases abs_cases (roundHalfEven (q / ulp q)) with ⟨h1, _⟩ | ⟨h1, _⟩ <;> omega
    have h2 : (2 : ℚ) ^ (exponent q - 51) = 2 * ulp q := by
      unfold ulp
      rw [show exponent q - 51 = 1 + (exponent q - 52) by ring,
        zpow_add₀ (by norm_num : (2 : ℚ) ≠ 0)]
      norm_num
    rcases hcase with h | h
    · refine roundFin_of_grid (roundFin q) 4503599627370496 (exponent q - 51) ?_ (by norm_num)
        (by omega)
      unfold roundFin
      rw [h, h2]
      push_cast
      ring
    · refine roundFin_of_grid (roundFin q) (-4503599627370496) (exponent q - 51) ?_
        (by norm_num) (by omega)
      unfold roundFin
      rw [h, h2]
      push_cast
      ring

/-! ## Facts about `round64` -/

theorem round64_cases (q : ℚ) :
    (round64 q = F64.pinf ∧ (2 : ℚ) ^ (1024 : Nat) ≤ roundFin q) ∨
    (round64 q = F64.ninf ∧ roundFin q ≤ -(2 : ℚ) ^ (1024 : Nat)) ∨
    (round64 q = F64.fin (roundFin q) ∧ -(2 : ℚ) ^ (1024 : Nat) < roundFin q ∧
      roundFin q < (2 : ℚ) ^ (1024 : Nat)) := by
  unfold round64
  by_cases h1 : (2 : ℚ) ^ (1024 : Nat) ≤ roundFin q
  · left
    exact ⟨if_pos h1, h1⟩
  · by_cases h2 : roundFin q ≤ -(2 : ℚ) ^ (1024 : Nat)
    · right; left
      exact ⟨by rw [if_neg h1, if_pos h2], h2⟩
    · right; right
      exact ⟨by rw [if_neg h1, if_neg h2], not_le.mp h2, not_le.mp h1⟩

theorem round64_eq_fin {q r : ℚ} (h : round64 q = F64.fin r) :
    r = roundFin q ∧ -(2 : ℚ) ^ (1024 : Nat) < r ∧ r < (2 : ℚ) ^ (1024 : Nat) := by
  rcases round64_cases q with ⟨h1, _⟩ | ⟨h1, _⟩ | ⟨h1, h2, h3⟩
  · rw [h1] at h; exact absurd h (by simp)
  · rw [h1] at h; exact absurd h (by simp)
  · rw [h1] at h
    have : roundFin q = r := by injection h
    rw [← this]
    exact ⟨rfl, h2, h3⟩

theorem round64_of_roundFin_eq {q : ℚ} (h : roundFin q = q)
    (h1 : -(2 : ℚ) ^ (1024 : Nat) < q) (h2 : q < (2 : ℚ) ^ (1024 : Nat)) :
    round64 q = F64.fin q := by
  unfold round64
  rw [h, if_neg (not_le.mpr h2), if_neg (not_le.mpr h1)]

/-- A result of `round64` is a `float64`: rounding it again gives it back. -/
theorem round64_fin_idem {q r : ℚ} (h : round64 q = F64.fin r) : round64 r = F64.fin r := by
  obtain ⟨h1, h2, h3⟩ := round64_eq_fin h
  apply round64_of_roundFin_eq _ h2 h3
  rw [h1, roundFin_idem]

/-- Values with fewer than 54 significant bits, a binary exponent of at
least `-1074` and a magnitude below `2^1024` are `float64` values. -/
theorem round64_of_grid (q : ℚ) (n k : Int) (hq : q = (n : ℚ) * (2 : ℚ) ^ k)
    (hn : |n| < 9007199254740992) (hk : -1074 ≤ k)
    (h1 : -(2 : ℚ) ^ (1024 : Nat) < q) (h2 : q < (2 : ℚ) ^ (1024 : Nat)) :
    round64 q = F64.fin q :=
  round64_of_roundFin_eq (roundFin_of_grid q n k hq hn hk) h1 h2

/-- Integers of magnitude below `2^53` convert to `float64` exactly. -/
theorem round64_intCast (i : Int) (h : |i| < 9007199254740992) :
    round64 (i : ℚ) = F64.fin (i : ℚ) := by
  have hq : |(i : ℚ)| < 9007199254740992 := by exact_mod_cast h
  rw [abs_lt] at hq
  apply round64_of_grid (i : ℚ) i 0 (by simp) h (by norm_num)
  · have : (-(2 : ℚ) ^ (1024 : Nat)) ≤ -9007199254740992 := by norm_num
    linarith [hq.1]
  · have : (9007199254740992 : ℚ) ≤ (2 : ℚ) ^ (1024 : Nat) := by norm_num
    linarith [hq.2]

/-- Rounding is monotone on finite results. -/
theorem round64_fin_le_fin {x y a b : ℚ} (h : x ≤ y) (hx : round64 x = F64.fin a)
    (hy : round64 y = F64.fin b) : a ≤ b := by
  rw [(round64_eq_fin hx).1, (round64_eq_fin hy).1]
  exact roundFin_mono h

/-- A rational between two rationals that round to finite values rounds to
a finite value between these. -/
theorem round64_between {a x b a2 b2 : ℚ} (h1 : a ≤ x) (h2 : x ≤ b)
    (ha : round64 a = F64.fin a2) (hb : round64 b = F64.fin b2) :
    ∃ r, round64 x = F64.fin r ∧ a2 ≤ r ∧ r ≤ b2 := by
  obtain ⟨ea, la, _⟩ := round64_eq_fin ha
  obtain ⟨eb, _, ub⟩ := round64_eq_fin hb
  have m1 : a2 ≤ roundFin x := by rw [ea]; exact roundFin_mono h1
  have m2 : roundFin x ≤ b2 := by rw [eb]; exact roundFin_mono h2
  refine ⟨roundFin x, ?_, m1, m2⟩
  unfold round64
  rw [if_neg (not_le.mpr (lt_of_le_of_lt m2 ub)), if_neg (not_le.mpr (lt_of_lt_of_le la m1))]


/-- Evaluation of the rounding at a rational in the normal range: with
`2^e ≤ |q| < 2^(e+1)` the result is the integer multiple of `2^(e-52)`
within half a unit of `q`. -/
theorem roundFin_eval (q : ℚ) (e n : Int) (h1 : (2 : ℚ) ^ e ≤ |q|)
    (h2 : |q| < (2 : ℚ) ^ (e + 1)) (he : -1022 ≤ e)
    (hn : |q / (2 : ℚ) ^ (e - 52) - (n : ℚ)| < 1 / 2) :
    roundFin q = (n : ℚ) * (2 : ℚ) ^ (e - 52) := by
  have hq : 0 < |q| := lt_of_lt_of_le (zpow_pos (by norm_num) e) h1
  have hlog : Int.log 2 |q| = e := by
    apply le_antisymm
    · have := (Int.lt_zpow_iff_log_lt (b := 2) (by norm_num) hq).mp (by simpa using h2)
      omega
    · exact (Int.zpow_le_iff_le_log (b := 2) (by norm_num) hq).mp (by simpa using h1)
  have hexp : exponent q = e := by
    unfold exponent
    rw [hlog]
    exact max_eq_left he
  unfold roundFin ulp
  rw [hexp, roundHalfEven_eq_of_near hn]

theorem round64_eval (q : ℚ) (e n : Int) (r : ℚ) (h1 : (2 : ℚ) ^ e ≤ |q|)
    (h2 : |q| < (2 : ℚ) ^ (e + 1)) (he : -1022 ≤ e)
    (hn : |q / (2 : ℚ) ^ (e - 52) - (n : ℚ)| < 1 / 2)
    (hr : r = (n : ℚ) * (2 : ℚ) ^ (e - 52))
    (hlo : -(2 : ℚ) ^ (1024 : Nat) < r) (hhi : r < (2 : ℚ) ^ (1024 : Nat)) :
    round64 q = F64.fin r := by
  have h := roundFin_eval q e n h1 h2 he hn
  rw [← hr] at h
  unfold round64
  rw [h, if_neg (not_le.mpr hhi), if_neg (not_le.mpr hlo)]

theorem round64_zero : round64 0 = F64.fin 0 := by
  simpa using round64_intCast 0 (by norm_num)

theorem round64_one : round64 1 = F64.fin 1 := by
  simpa using round64_intCast 1 (by norm_num)

theorem round64_neg_one : round64 (-1) = F64.fin (-1) := by
  simpa using round64_intCast (-1) (by norm_num)

theorem round64_two : round64 2 = F64.fin 2 := by
  simpa using round64_intCast 2 (by norm_num)

/-- A non-negative rational rounds to a non-negative value or overflows. -/
theorem round64_nonneg {q : ℚ} (h : 0 ≤ q) :
    round64 q = F64.pinf ∨ ∃ r, round64 q = F64.fin r ∧ 0 ≤ r := by
  rcases round64_cases q with ⟨h1, _⟩ | ⟨_, h2⟩ | ⟨h1, _, _⟩
  · exact Or.inl h1
  · exfalso
    have := roundFin_nonneg h
    have h3 : (0 : ℚ) < (2 : ℚ) ^ (1024 : Nat) := by positivity
    linarith
  · exact Or.inr ⟨roundFin q, h1, roundFin_nonneg h⟩

/-- A rational at most `b`, where `b` rounds to the finite `b2`, rounds to
a finite value of at most `b2` when it is non-negative. -/
theorem round64_nonneg_le {x b b2 : ℚ} (h0 : 0 ≤ x) (h : x ≤ b) (hb : round64 b = F64.fin b2) :
    ∃ r, round64 x = F64.fin r ∧ 0 ≤ r ∧ r ≤ b2 :=
  round64_between h0 h round64_zero hb

theorem toDuration_fin_of_range {x : ℚ} (h0 : 0 ≤ x) (h1 : x < 9223372036854775808) :
    toDuration (F64.fin x) = Int.floor x := by
  have hf0 : 0 ≤ Int.floor x := Int.floor_nonneg.mpr h0
  have hf1 : Int.floor x < 9223372036854775808 := by
    have : ((Int.floor x : Int) : ℚ) < ((9223372036854775808 : Int) : ℚ) := by
      push_cast
      exact lt_of_le_of_lt (Int.floor_le x) h1
    exact_mod_cast this
  unfold toDuration
  simp only [if_pos h0]
  rw [if_pos]
  constructor
  · have : -(2 : Int) ^ (63 : Nat) ≤ 0 := by norm_num
    omega
  · have : (2 : Int) ^ (63 : Nat) = 9223372036854775808 := by norm_num
    omega


/-- The constant `1.6` as a `float64`. -/
theorem lit_eight_fifths :
    F64.lit (8 / 5) = F64.fin (3602879701896397 / 2251799813685248) := by
  unfold F64.lit
  apply round64_eval (8 / 5) 0 7205759403792794
  · norm_num [abs_of_pos]
  · norm_num [abs_of_pos]
  · norm_num
  · norm_num [abs_lt]
  · norm_num
  · norm_num
  · norm_num

/-- The constant `0.2` as a `float64`. -/
theorem lit_one_fifth :
    F64.lit (1 / 5) = F64.fin (3602879701896397 / 18014398509481984) := by
  unfold F64.lit
  apply round64_eval (1 / 5) (-3) 7205759403792794
  · norm_num [abs_of_pos]
  · norm_num [abs_of_pos]
  · norm_num
  · norm_num [abs_lt]
  · norm_num
  · norm_num
  · norm_num


/-! ## Defaulting -/

theorem lit_eight_fifths_not_lt_one : F64.lt (F64.lit (8 / 5)) (F64.fin 1) = false := by
  rw [lit_eight_fifths]
  simp only [F64.lt, decide_eq_false_iff_not, not_lt]
  norm_num

theorem lit_eight_fifths_ge_one : F64.le (F64.fin 1) (F64.lit (8 / 5)) = true := by
  rw [lit_eight_fifths]
  simp only [F64.le, decide_eq_true_eq]
  norm_num

theorem lit_eight_fifths_ne_zero : F64.lit (8 / 5) ≠ F64.fin 0 := by
  rw [lit_eight_fifths]
  intro h
  injection h with h
  norm_num at h

theorem lit_one_fifth_ne_zero : F64.lit (1 / 5) ≠ F64.fin 0 := by
  rw [lit_one_fifth]
  intro h
  injection h with h
  norm_num at h

/-- Field by field, what `fillDefaultConfig` returns for a non-nil
configuration. -/
theorem fillDefaultConfig_fields (d : Config) :
    (fillDefaultConfig (some d)).BaseDelay =
        (if d.BaseDelay = 0 then 1000000000 else d.BaseDelay) ∧
      (fillDefaultConfig (some d)).Multiplier =
        (if d.Multiplier = F64.fin 0 then F64.lit (8 / 5) else d.Multiplier) ∧
      (fillDefaultConfig (some d)).Jitter =
        (if d.Jitter = F64.fin 0 then F64.lit (1 / 5) else d.Jitter) ∧
      (fillDefaultConfig (some d)).MaxDelay =
        (if d.MaxDelay = 0 then 120000000000 else d.MaxDelay) := by
  by_cases h1 : d.BaseDelay = 0 <;> by_cases h2 : d.Jitter = F64.fin 0 <;>
    by_cases h3 : d.MaxDelay = 0 <;> by_cases h4 : d.Multiplier = F64.fin 0 <;>
    simp [fillDefaultConfig, DefaultConfig, Second, h1, h2, h3, h4]

namespace v2

theorem fill_BaseDelay (bo : Backoff) :
    bo.fill.BaseDelay = if bo.BaseDelay = 0 then Second else bo.BaseDelay := by
  by_cases h1 : bo.BaseDelay = 0 <;> by_cases h2 : bo.MaxDelay = 0 <;>
    by_cases h3 : F64.lt bo.Multiplier (F64.fin 1) = true <;>
    simp [Backoff.fill, h1, h2, h3]

theorem fill_MaxDelay (bo : Backoff) :
    bo.fill.MaxDelay = if bo.MaxDelay = 0 then 30 * Second else bo.MaxDelay := by
  by_cases h1 : bo.BaseDelay = 0 <;> by_cases h2 : bo.MaxDelay = 0 <;>
    by_cases h3 : F64.lt bo.Multiplier (F64.fin 1) = true <;>
    simp [Backoff.fill, h1, h2, h3]

theorem fill_Multiplier (bo : Backoff) :
    bo.fill.Multiplier =
      if F64.lt bo.Multiplier (F64.fin 1) = true then F64.lit (8 / 5) else bo.Multiplier := by
  by_cases h1 : bo.BaseDelay = 0 <;> by_cases h2 : bo.MaxDelay = 0 <;>
    by_cases h3 : F64.lt bo.Multiplier (F64.fin 1) = true <;>
    simp [Backoff.fill, h1, h2, h3]

theorem fill_Jitter (bo : Backoff) : bo.fill.Jitter = bo.Jitter := by
  by_cases h1 : bo.BaseDelay = 0 <;> by_cases h2 : bo.MaxDelay = 0 <;>
    by_cases h3 : F64.lt bo.Multiplier (F64.fin 1) = true <;>
    simp [Backoff.fill, h1, h2, h3]

theorem fill_BaseDelay_nonneg (bo : Backoff) (h : 0 ≤ bo.BaseDelay) : 0 ≤ bo.fill.BaseDelay := by
  rw [fill_BaseDelay]
  split_ifs
  · decide
  · exact h

theorem fill_BaseDelay_ne_zero (bo : Backoff) : bo.fill.BaseDelay ≠ 0 := by
  rw [fill_BaseDelay]
  split_ifs with h
  · decide
  · exact h

theorem fill_MaxDelay_ne_zero (bo : Backoff) : bo.fill.MaxDelay ≠ 0 := by
  rw [fill_MaxDelay]
  split_ifs with h
  · decide
  · exact h

theorem fill_Multiplier_not_lt_one (bo : Backoff) :
    F64.lt bo.fill.Multiplier (F64.fin 1) = false := by
  rw [fill_Multiplier]
  split_ifs with h
  · exact lit_eight_fifths_not_lt_one
  · simpa using h

theorem fill_fill (bo : Backoff) : bo.fill.fill = bo.fill := by
  have h1 := fill_BaseDelay_ne_zero bo
  have h2 := fill_MaxDelay_ne_zero bo
  have h3 := fill_Multiplier_not_lt_one bo
  generalize bo.fill = f at h1 h2 h3
  simp [Backoff.fill, h1, h2, h3]

theorem Backoff_snd (bo : Backoff) (rnd : F64) (retries : Int) :
    (bo.Backoff rnd retries).2 = bo.fill := by
  simp only [Backoff.Backoff]
  split_ifs <;> rfl

end v2

/-! ## The jitter factor -/

/-- For a draw in `[0, 1)` the value `rand.Float64()*2-1` is a finite number
in `[-1, 1]`. -/
theorem unit_draw {r : ℚ} (hr0 : 0 ≤ r) (hr1 : r < 1) :
    ∃ u, F64.sub (F64.mul (F64.fin r) (F64.fin 2)) (F64.fin 1) = F64.fin u ∧
      -1 ≤ u ∧ u ≤ 1 := by
  obtain ⟨t, ht, ht0, ht2⟩ :=
    round64_between (show (0 : ℚ) ≤ r * 2 by linarith) (show r * 2 ≤ 2 by linarith)
      round64_zero round64_two
  obtain ⟨u, hu, hu0, hu1⟩ :=
    round64_between (show (-1 : ℚ) ≤ t + -1 by linarith) (show t + -1 ≤ 1 by linarith)
      round64_neg_one round64_one
  refine ⟨u, ?_, hu0, hu1⟩
  show F64.sub (round64 (r * 2)) (F64.fin 1) = F64.fin u
  rw [ht]
  exact hu

/-- With a zero jitter the factor `1 + Jitter*(rand.Float64()*2-1)` is
exactly 1, whatever the draw in `[0, 1)`. -/
theorem jitter_factor_zero {r : ℚ} (hr0 : 0 ≤ r) (hr1 : r < 1) :
    F64.add (F64.fin 1)
      (F64.mul (F64.fin 0) (F64.sub (F64.mul (F64.fin r) (F64.fin 2)) (F64.fin 1))) =
      F64.fin 1 := by
  obtain ⟨u, hu, _, _⟩ := unit_draw hr0 hr1
  rw [hu]
  show F64.add (F64.fin 1) (round64 (0 * u)) = F64.fin 1
  rw [zero_mul, round64_zero]
  show round64 (1 + 0) = F64.fin 1
  rw [add_zero, round64_one]


/-! ## Evaluation helpers -/

theorem ofInt_small (i : Int) (h : |i| < 9007199254740992) : F64.ofInt i = F64.fin (i : ℚ) :=
  round64_intCast i h

theorem mul_fin_one (q : ℚ) : F64.mul (F64.fin q) (F64.fin 1) = round64 q := by
  show round64 (q * 1) = round64 q
  rw [mul_one]

/-- The largest `int64` converts to `2^63`. -/
theorem ofInt_maxInt64 : F64.ofInt 9223372036854775807 = F64.fin 9223372036854775808 := by
  unfold F64.ofInt
  apply round64_eval _ 62 9007199254740992
  · norm_num [abs_of_pos]
  · norm_num [abs_of_pos]
  · norm_num
  · norm_num [abs_lt]
  · norm_num
  · norm_num
  · norm_num

/-- With a zero jitter the delay of a non-zero attempt is the clamped
envelope, multiplied by the factor 1 and converted. -/
theorem Exponential.Backoff_zero_jitter (base maxDelay : Int) (mult : F64) (r : ℚ)
    (retries : Int) (hr0 : 0 ≤ r) (hr1 : r < 1) (hne : retries ≠ 0) :
    Exponential.Backoff ⟨⟨base, mult, F64.fin 0, maxDelay⟩⟩ (F64.fin r) retries =
      if F64.lt (F64.mul (clamp (envelopeLoop mult (F64.ofInt maxDelay) retries.toNat
          (F64.ofInt base)).1 (F64.ofInt maxDelay)) (F64.fin 1)) (F64.fin 0) = true then 0
      else toDuration (F64.mul (clamp (envelopeLoop mult (F64.ofInt maxDelay) retries.toNat
          (F64.ofInt base)).1 (F64.ofInt maxDelay)) (F64.fin 1)) := by
  simp only [Exponential.Backoff, if_neg hne, jittered, jitter_factor_zero hr0 hr1]

theorem toDuration_two_pow_63 : toDuration (F64.fin 9223372036854775808) = -9223372036854775808 := by
  have hf : Int.floor (9223372036854775808 : ℚ) = 9223372036854775808 := by
    rw [Int.floor_eq_iff]
    norm_num
  unfold toDuration
  simp only [show (0 : ℚ) ≤ 9223372036854775808 by norm_num, if_true, hf]
  norm_num

/-- One second doubled until it reaches `2^63`: 34 doublings, each of them
exact. -/
theorem envelopeLoop_doubling :
    ∀ (j i n : Nat), i + j = 34 →
      (envelopeLoop (F64.fin 2) (F64.fin 9223372036854775808) (n + j)
        (F64.fin (1000000000 * 2 ^ i))).1 = F64.fin (1000000000 * 2 ^ 34) := by
  intro j
  induction j with
  | zero =>
    intro i n hi
    have hi2 : i = 34 := by omega
    subst hi2
    have hlt : F64.lt (F64.fin (1000000000 * 2 ^ 34)) (F64.fin 9223372036854775808) = false := by
      simp only [F64.lt, decide_eq_false_iff_not, not_lt]
      norm_num
    cases n with
    | zero => rfl
    | succ n =>
      show (envelopeLoop _ _ (n + 1) _).1 = _
      rw [envelopeLoop, hlt]
      rfl
  | succ j ih =>
    intro i n hi
    have hi2 : i ≤ 33 := by omega
    have hpow : (2 : ℚ) ^ i ≤ 2 ^ 33 := pow_le_pow_right₀ (by norm_num) hi2
    have hlt : F64.lt (F64.fin (1000000000 * 2 ^ i)) (F64.fin 9223372036854775808) = true := by
      simp only [F64.lt, decide_eq_true_eq]
      have : (1000000000 : ℚ) * 2 ^ 33 < 9223372036854775808 := by norm_num
      nlinarith
    have hmul : F64.mul (F64.fin (1000000000 * 2 ^ i)) (F64.fin 2) =
        F64.fin (1000000000 * 2 ^ (i + 1)) := by
      show round64 (1000000000 * 2 ^ i * 2) = _
      have he : (1000000000 : ℚ) * 2 ^ i * 2 = 1000000000 * 2 ^ (i + 1) := by ring
      rw [he]
      have hpos : (0 : ℚ) < 1000000000 * 2 ^ (i + 1) := by positivity
      have hup : (1000000000 : ℚ) * 2 ^ (i + 1) ≤ 1000000000 * 2 ^ 34 :=
        mul_le_mul_of_nonneg_left (pow_le_pow_right₀ (by norm_num) (by omega)) (by norm_num)
      apply round64_of_grid _ 1000000000 ((i + 1 : Nat) : Int)
      · rw [zpow_natCast]
        norm_num
      · norm_num
      · omega
      · have : (-(2 : ℚ) ^ (1024 : Nat)) < 0 := by norm_num
        linarith
      · have : (1000000000 : ℚ) * 2 ^ 34 < (2 : ℚ) ^ (1024 : Nat) := by norm_num
        linarith
    show (envelopeLoop _ _ (n + j + 1) _).1 = _
    rw [envelopeLoop, hlt, if_pos rfl, hmul]
    exact ih (i + 1) n (by omega)


theorem mul_fin_fin (a b : ℚ) : F64.mul (F64.fin a) (F64.fin b) = round64 (a * b) := rfl

theorem add_fin_fin (a b : ℚ) : F64.add (F64.fin a) (F64.fin b) = round64 (a + b) := rfl

theorem sub_fin_fin (a b : ℚ) : F64.sub (F64.fin a) (F64.fin b) = round64 (a + -b) := rfl

theorem lt_fin_fin (a b : ℚ) : F64.lt (F64.fin a) (F64.fin b) = decide (a < b) := rfl

/-- The delay returned for a jittered value `x` that is a number in
`[0, 2^63)`: its integer part. -/
theorem delay_of_range {x : ℚ} (h0 : 0 ≤ x) (h1 : x < 9223372036854775808) :
    (if F64.lt (F64.fin x) (F64.fin 0) = true then 0 else toDuration (F64.fin x)) =
      Int.floor x := by
  rw [lt_fin_fin, if_neg (by simpa using h0), toDuration_fin_of_range h0 h1]

theorem floor_intCast_rat (i : Int) : Int.floor ((i : ℚ)) = i := Int.floor_intCast i


/-! ## Non-negative values, the loop and the jitter factor -/

theorem nonnegFloat_round64 {q : ℚ} (h : 0 ≤ q) : F64.NonnegFloat (round64 q) := by
  rcases round64_nonneg h with h1 | ⟨r, h1, h2⟩
  · exact Or.inl h1
  · exact Or.inr ⟨r, h1, h2, round64_fin_idem h1⟩

theorem nonnegFloat_ofInt {i : Int} (h : 0 ≤ i) : F64.NonnegFloat (F64.ofInt i) :=
  nonnegFloat_round64 (by exact_mod_cast h)

theorem nonnegFloat_mul {b : F64} {m : ℚ} (hb : F64.NonnegFloat b) (hm : 0 < m) :
    F64.NonnegFloat (F64.mul b (F64.fin m)) := by
  rcases hb with rfl | ⟨q, rfl, hq, _⟩
  · left
    show (if m = 0 then F64.nan else if 0 < m then F64.pinf else F64.ninf) = F64.pinf
    rw [if_neg hm.ne', if_pos hm]
  · exact nonnegFloat_round64 (mul_nonneg hq hm.le)

theorem nonnegFloat_envelopeLoop {m : ℚ} (hm : 0 < m) (max : F64) :
    ∀ (n : Nat) (b : F64), F64.NonnegFloat b →
      F64.NonnegFloat (envelopeLoop (F64.fin m) max n b).1 := by
  intro n
  induction n with
  | zero => intro b hb; exact hb
  | succ n ih =>
    intro b hb
    rw [envelopeLoop]
    by_cases h : F64.lt b max = true
    · rw [if_pos h]
      exact ih _ (nonnegFloat_mul hb hm)
    · rw [if_neg h]
      exact hb

/-- The clamp of a non-negative value to a finite non-negative maximum is a
finite value between 0 and the maximum. -/
theorem clamp_nonnegFloat {b : F64} {M : ℚ} (hb : F64.NonnegFloat b) (hM : 0 ≤ M) :
    ∃ c, clamp b (F64.fin M) = F64.fin c ∧ 0 ≤ c ∧ c ≤ M := by
  unfold clamp
  rcases hb with rfl | ⟨q, rfl, hq, _⟩
  · exact ⟨M, by simp [F64.lt], hM, le_refl M⟩
  · rw [lt_fin_fin]
    by_cases h : M < q
    · exact ⟨M, by simp [h], hM, le_refl M⟩
    · exact ⟨q, by simp [h], hq, not_lt.mp h⟩

theorem round64_neg_of_fin {q : ℚ} (h : round64 q = F64.fin q) : round64 (-q) = F64.fin (-q) := by
  obtain ⟨h1, h2, h3⟩ := round64_eq_fin h
  apply round64_of_roundFin_eq
  · rw [roundFin_neg, ← h1]
  · linarith
  · linarith

/-- The factor `1 + Jitter*(rand.Float64()*2-1)` for a jitter in `[0, 1]` and
a draw in `[0, 1)`: a finite number between `1 - Jitter` and `1 + Jitter` as
`float64` arithmetic computes them. -/
theorem jitter_factor_bounds {j r : ℚ} (hj0 : 0 ≤ j) (hj1 : j ≤ 1)
    (hjf : round64 j = F64.fin j) (hr0 : 0 ≤ r) (hr1 : r < 1) :
    ∃ f, F64.add (F64.fin 1)
        (F64.mul (F64.fin j) (F64.sub (F64.mul (F64.fin r) (F64.fin 2)) (F64.fin 1))) =
        F64.fin f ∧ 0 ≤ f ∧
      (∀ hi, round64 (1 + j) = F64.fin hi → f ≤ hi) ∧
      (∀ lo, round64 (1 + -j) = F64.fin lo → lo ≤ f) := by
  obtain ⟨u, hu, hu0, hu1⟩ := unit_draw hr0 hr1
  have hlow : -j ≤ j * u := by nlinarith
  have hupp : j * u ≤ j := by nlinarith
  obtain ⟨w, hw, hw0, hw1⟩ := round64_between hlow hupp (round64_neg_of_fin hjf) hjf
  obtain ⟨f, hf, hf0, _⟩ :=
    round64_between (show (0 : ℚ) ≤ 1 + w by linarith) (show 1 + w ≤ 2 by linarith)
      round64_zero round64_two
  refine ⟨f, ?_, hf0, ?_, ?_⟩
  · rw [hu, mul_fin_fin, hw, add_fin_fin, hf]
  · intro hi hhi
    exact round64_fin_le_fin (show 1 + w ≤ 1 + j by linarith) hf hhi
  · intro lo hlo
    exact round64_fin_le_fin (show 1 + -j ≤ 1 + w by linarith) hlo hf

theorem mul_eq_fin {x y : F64} {H : ℚ} (h : F64.mul x y = F64.fin H) :
    ∃ a b, x = F64.fin a ∧ y = F64.fin b := by
  cases x <;> cases y <;> simp only [F64.mul] at h <;>
    first
    | exact ⟨_, _, rfl, rfl⟩
    | exact absurd h (by simp)
    | split_ifs at h

/-- The jittered value under the hypotheses of the envelope bound: a finite
number between 0 and the `float64` product of `float64(MaxDelay)` and
`1 + Jitter`. -/
theorem jittered_bounds (base maxDelay : Int) (m j r H : ℚ) (retries : Int)
    (hbase : 0 ≤ base) (hm : 0 < m) (hmax : 0 ≤ maxDelay)
    (hj0 : 0 ≤ j) (hj1 : j ≤ 1) (hjf : round64 j = F64.fin j)
    (hr0 : 0 ≤ r) (hr1 : r < 1)
    (hH : F64.mul (F64.ofInt maxDelay) (F64.add (F64.fin 1) (F64.fin j)) = F64.fin H) :
    ∃ x, jittered base (F64.fin m) (F64.fin j) maxDelay (F64.fin r) retries = F64.fin x ∧
      0 ≤ x ∧ x ≤ H := by
  obtain ⟨M, F, hM, hF⟩ := mul_eq_fin hH
  rw [hM, hF, mul_fin_fin] at hH
  have hM0 : 0 ≤ M := by
    rcases round64_nonneg (show (0 : ℚ) ≤ (maxDelay : ℚ) by exact_mod_cast hmax) with h | ⟨x, h, hx⟩
    · unfold F64.ofInt at hM
      rw [h] at hM
      exact absurd hM (by simp)
    · unfold F64.ofInt at hM
      rw [h] at hM
      injection hM with hM
      rw [← hM]
      exact hx
  obtain ⟨c, hc, hc0, hcM⟩ := clamp_nonnegFloat
    (nonnegFloat_envelopeLoop hm (F64.fin M) retries.toNat (F64.ofInt base)
      (nonnegFloat_ofInt hbase)) hM0
  obtain ⟨f, hf, hf0, hfhi, _⟩ := jitter_factor_bounds hj0 hj1 hjf hr0 hr1
  have hfF : f ≤ F := hfhi F (by rw [← add_fin_fin]; exact hF)
  obtain ⟨x, hx, hx0, hxH⟩ := round64_nonneg_le (mul_nonneg hc0 hf0)
    (mul_le_mul hcM hfF hf0 hM0) hH
  refine ⟨x, ?_, hx0, hxH⟩
  simp only [jittered, hM, hc, hf]
  rw [mul_fin_fin]
  exact hx

/-- The delay computed from a jittered value that is a number in
`[0, H]` with `H < 2^63` lies in `[0, H]`. -/
theorem delay_within {x H : ℚ} (hx0 : 0 ≤ x) (hxH : x ≤ H) (hH : H < 9223372036854775808) :
    0 ≤ (if F64.lt (F64.fin x) (F64.fin 0) = true then 0 else toDuration (F64.fin x)) ∧
      (((if F64.lt (F64.fin x) (F64.fin 0) = true then 0 else toDuration (F64.fin x)) : Int) :
        ℚ) ≤ H := by
  rw [delay_of_range hx0 (lt_of_le_of_lt hxH hH)]
  exact ⟨Int.floor_nonneg.mpr hx0, le_trans (Int.floor_le x) hxH⟩


theorem toDuration_of_large {x : ℚ} (h : 9223372036854775808 ≤ x) :
    toDuration (F64.fin x) = -9223372036854775808 := by
  have h0 : (0 : ℚ) ≤ x := le_trans (by norm_num) h
  have hf : (9223372036854775808 : Int) ≤ Int.floor x := by
    rw [Int.le_floor]
    exact_mod_cast h
  unfold toDuration
  simp only [if_pos h0]
  rw [if_neg]
  · norm_num
  · intro hc
    have : (2 : Int) ^ (63 : Nat) = 9223372036854775808 := by norm_num
    omega

namespace v2

/-- What the defaulting leaves of a receiver with a positive `Multiplier` and
a non-zero `MaxDelay`: a non-negative base delay stays non-negative, the
multiplier is a positive number, jitter and maximum are unchanged. -/
theorem fill_of_positive (base maxDelay : Int) (m : ℚ) (jitter : F64) (hbase : 0 ≤ base)
    (hm : 0 < m) (hmax : maxDelay ≠ 0) :
    ∃ (b2 : Int) (m2 : ℚ), Backoff.fill ⟨base, F64.fin m, jitter, maxDelay⟩ =
      ⟨b2, F64.fin m2, jitter, maxDelay⟩ ∧ 0 ≤ b2 ∧ 0 < m2 := by
  have h1 := fill_BaseDelay ⟨base, F64.fin m, jitter, maxDelay⟩
  have h2 := fill_MaxDelay ⟨base, F64.fin m, jitter, maxDelay⟩
  have h3 := fill_Multiplier ⟨base, F64.fin m, jitter, maxDelay⟩
  have h4 := fill_Jitter ⟨base, F64.fin m, jitter, maxDelay⟩
  have h5 := fill_BaseDelay_nonneg ⟨base, F64.fin m, jitter, maxDelay⟩ hbase
  simp only [if_neg hmax] at h2
  generalize Backoff.fill ⟨base, F64.fin m, jitter, maxDelay⟩ = f at h1 h2 h3 h4 h5
  obtain ⟨fb, fm, fj, fmax⟩ := f
  simp only at h1 h2 h3 h4 h5
  subst h2 h4
  by_cases hlt : F64.lt (F64.fin m) (F64.fin 1) = true
  · rw [if_pos hlt, lit_eight_fifths] at h3
    exact ⟨fb, _, by rw [h3], h5, by norm_num⟩
  · rw [if_neg hlt] at h3
    exact ⟨fb, m, by rw [h3], h5, hm⟩

end v2


/-- A rational between two integers of magnitude below `2^53`, the lower one
non-negative, rounds to a finite value whose delay lies between them. -/
theorem delay_between_ints (y : ℚ) (A B : Int) (hA : 0 ≤ A) (hA2 : A < 9007199254740992)
    (hB : |B| < 9007199254740992) (h1 : (A : ℚ) ≤ y) (h2 : y ≤ (B : ℚ)) :
    ∃ x, round64 y = F64.fin x ∧
      A ≤ (if F64.lt (F64.fin x) (F64.fin 0) = true then 0 else toDuration (F64.fin x)) ∧
      (if F64.lt (F64.fin x) (F64.fin 0) = true then 0 else toDuration (F64.fin x)) ≤ B := by
  have hA3 : |A| < 9007199254740992 := by rw [abs_of_nonneg hA]; exact hA2
  obtain ⟨x, hx, hxA, hxB⟩ := round64_between h1 h2 (round64_intCast A hA3) (round64_intCast B hB)
  have hx0 : (0 : ℚ) ≤ x := le_trans (by exact_mod_cast hA) hxA
  have hB2 : (B : ℚ) < 9007199254740992 := by
    have := (abs_lt.mp hB).2
    exact_mod_cast this
  have hx1 : x < 9223372036854775808 := by
    have : (9007199254740992 : ℚ) ≤ 9223372036854775808 := by norm_num
    linarith
  refine ⟨x, hx, ?_, ?_⟩
  · rw [delay_of_range hx0 hx1]
    exact Int.le_floor.mpr hxA
  · rw [delay_of_range hx0 hx1]
    have : ((Int.floor x : Int) : ℚ) ≤ (B : ℚ) := le_trans (Int.floor_le x) hxB
    exact_mod_cast this

/-- The `float64` value of the constant `0.2` is a jitter in `[0, 1]`, and
the factor built from it lies in `[3/4, 77/64]` for every draw. -/
theorem default_jitter_factor {r : ℚ} (hr0 : 0 ≤ r) (hr1 : r < 1) :
    ∃ f, F64.add (F64.fin 1)
        (F64.mul (F64.lit (1 / 5)) (F64.sub (F64.mul (F64.fin r) (F64.fin 2)) (F64.fin 1))) =
        F64.fin f ∧ 3 / 4 ≤ f ∧ f ≤ 77 / 64 := by
  have hjf : round64 (3602879701896397 / 18014398509481984) =
      F64.fin (3602879701896397 / 18014398509481984) := by
    have := lit_one_fifth
    unfold F64.lit at this
    exact round64_fin_idem this
  obtain ⟨f, hf, _, hhi, hlo⟩ := jitter_factor_bounds
    (show (0 : ℚ) ≤ 3602879701896397 / 18014398509481984 by norm_num)
    (show (3602879701896397 / 18014398509481984 : ℚ) ≤ 1 by norm_num) hjf hr0 hr1
  have g1 : round64 (77 / 64) = F64.fin (77 / 64) :=
    round64_of_grid _ 77 (-6) (by norm_num) (by norm_num) (by norm_num) (by norm_num)
      (by norm_num)
  have g2 : round64 (3 / 4) = F64.fin (3 / 4) :=
    round64_of_grid _ 3 (-2) (by norm_num) (by norm_num) (by norm_num) (by norm_num)
      (by norm_num)
  obtain ⟨hi, hhi2, _, hhi3⟩ := round64_between
    (show (1 : ℚ) ≤ 1 + 3602879701896397 / 18014398509481984 by norm_num)
    (show (1 : ℚ) + 3602879701896397 / 18014398509481984 ≤ 77 / 64 by norm_num)
    round64_one g1
  obtain ⟨lo, hlo2, hlo3, _⟩ := round64_between
    (show (3 / 4 : ℚ) ≤ 1 + -(3602879701896397 / 18014398509481984) by norm_num)
    (show (1 : ℚ) + -(3602879701896397 / 18014398509481984) ≤ 1 by norm_num)
    g2 round64_one
  refine ⟨f, ?_, le_trans hlo3 (hlo lo hlo2), le_trans (hhi hi hhi2) hhi3⟩
  rw [lit_one_fifth]
  exact hf


/-! ## Order facts on non-negative `float64` values -/

theorem nonnegFloat_not_lt_zero {x : F64} (h : F64.NonnegFloat x) :
    F64.lt x (F64.fin 0) = false := by
  rcases h with rfl | ⟨q, rfl, hq, _⟩
  · rfl
  · rw [lt_fin_fin]
    simpa using hq

theorem nonnegFloat_mul_one {x : F64} (h : F64.NonnegFloat x) : F64.mul x (F64.fin 1) = x := by
  rcases h with rfl | ⟨q, rfl, _, hq⟩
  · show (if (1 : ℚ) = 0 then F64.nan else if (0 : ℚ) < 1 then F64.pinf else F64.ninf) = F64.pinf
    norm_num
  · rw [mul_fin_one, hq]

theorem le_refl_nonnegFloat {x : F64} (h : F64.NonnegFloat x) : F64.le x x = true := by
  rcases h with rfl | ⟨q, rfl, _, _⟩
  · rfl
  · simp [F64.le]

theorem le_trans_f64 {x y z : F64} (h1 : F64.le x y = true) (h2 : F64.le y z = true) :
    F64.le x z = true := by
  cases x <;> cases y <;> cases z <;> simp [F64.le] at h1 h2 ⊢
  exact le_trans h1 h2

theorem le_of_not_lt {x y : F64} (hx : F64.NonnegFloat x) (hy : F64.NonnegFloat y)
    (h : F64.lt x y = false) : F64.le y x = true := by
  rcases hx with rfl | ⟨a, rfl, _, _⟩ <;> rcases hy with rfl | ⟨b, rfl, _, _⟩
  · rfl
  · rfl
  · simp [F64.lt] at h
  · simp only [lt_fin_fin, decide_eq_false_iff_not, not_lt] at h
    simpa [F64.le] using h

/-- Multiplying a non-negative `float64` by a number of at least one does not
make it smaller. -/
theorem le_mul_of_one_le {b : F64} {m : ℚ} (hb : F64.NonnegFloat b) (hm : 1 ≤ m) :
    F64.le b (F64.mul b (F64.fin m)) = true := by
  have hm0 : 0 < m := lt_of_lt_of_le one_pos hm
  rcases hb with rfl | ⟨q, rfl, hq, hqf⟩
  · show F64.le F64.pinf (if m = 0 then F64.nan else if 0 < m then F64.pinf else F64.ninf) = true
    rw [if_neg hm0.ne', if_pos hm0]
    rfl
  · rw [mul_fin_fin]
    have hle : q ≤ q * m := le_mul_of_one_le_right hq hm
    rcases round64_nonneg (mul_nonneg hq hm0.le) with h | ⟨x, h, _⟩
    · rw [h]
      rfl
    · rw [h]
      have := round64_fin_le_fin hle hqf h
      simpa [F64.le] using this

/-- With a multiplier of at least one the repeated product does not fall
below its start. -/
theorem le_floatPow {m : ℚ} (hm : 1 ≤ m) :
    ∀ (n : Nat) (b : F64), F64.NonnegFloat b → F64.le b (floatPow b (F64.fin m) n) = true := by
  intro n
  induction n with
  | zero => intro b hb; exact le_refl_nonnegFloat hb
  | succ n ih =>
    intro b hb
    rw [floatPow]
    exact le_trans_f64 (le_mul_of_one_le hb hm)
      (ih _ (nonnegFloat_mul hb (lt_of_lt_of_le one_pos hm)))

theorem nonnegFloat_floatPow {m : ℚ} (hm : 0 < m) :
    ∀ (n : Nat) (b : F64), F64.NonnegFloat b → F64.NonnegFloat (floatPow b (F64.fin m) n) := by
  intro n
  induction n with
  | zero => intro b hb; exact hb
  | succ n ih =>
    intro b hb
    rw [floatPow]
    exact ih _ (nonnegFloat_mul hb hm)

/-- Two non-negative values that are not below the maximum, one of them at
most the other, have the same clamp. -/
theorem clamp_eq_of_le {b P M : F64} (hb : F64.NonnegFloat b) (hP : F64.NonnegFloat P)
    (hM : F64.NonnegFloat M) (h1 : F64.le M b = true) (h2 : F64.le b P = true) :
    clamp b M = clamp P M := by
  unfold clamp
  rcases hb with rfl | ⟨x, rfl, _, _⟩ <;> rcases hP with rfl | ⟨y, rfl, _, _⟩ <;>
    rcases hM with rfl | ⟨z, rfl, _, _⟩ <;> simp [F64.le, F64.lt] at h1 h2 ⊢
  · intro h
    exact le_antisymm h h1
  · split_ifs with ha hc hc
    · rfl
    · exact absurd (lt_of_lt_of_le ha h2) hc
    · congr 1
      exact le_antisymm (not_lt.mp ha) h1
    · congr 1
      exact le_antisymm h2 (le_trans (not_lt.mp hc) h1)

theorem clamp_nonnegFloat_both {b M : F64} (hb : F64.NonnegFloat b) (hM : F64.NonnegFloat M) :
    F64.NonnegFloat (clamp b M) := by
  unfold clamp
  split_ifs
  · exact hM
  · exact hb

/-- The clamped result of the envelope loop is the clamped repeated product,
as long as the early exit cannot fire on a value that would later shrink. -/
theorem clamp_envelopeLoop {m : ℚ} (hm : 0 < m) {M : F64} (hM : F64.NonnegFloat M) :
    ∀ (n : Nat) (b : F64), F64.NonnegFloat b → (1 ≤ m ∨ F64.lt b M = true) →
      clamp (envelopeLoop (F64.fin m) M n b).1 M = clamp (floatPow b (F64.fin m) n) M := by
  intro n
  induction n with
  | zero => intro b _ _; rfl
  | succ n ih =>
    intro b hb hcase
    rw [envelopeLoop, floatPow]
    by_cases h : F64.lt b M = true
    · rw [if_pos h]
      apply ih _ (nonnegFloat_mul hb hm)
      rcases le_or_lt 1 m with h1 | h1
      · exact Or.inl h1
      · right
        rcases hb with rfl | ⟨q, rfl, hq, hqf⟩
        · cases M <;> simp [F64.lt] at h
        · rw [mul_fin_fin]
          have hle : q * m ≤ q := by nlinarith
          obtain ⟨x, hx, _, hxq⟩ := round64_nonneg_le (mul_nonneg hq hm.le) hle hqf
          rw [hx]
          rcases hM with rfl | ⟨M, rfl, _, _⟩
          · rfl
          · simp only [lt_fin_fin, decide_eq_true_eq] at h ⊢
            linarith
    · rw [if_neg h]
      have h1 : 1 ≤ m := hcase.resolve_right h
      have hfalse : F64.lt b M = false := by simpa using h
      have hP := nonnegFloat_floatPow hm n _ (nonnegFloat_mul hb hm)
      exact clamp_eq_of_le hb hP hM (le_of_not_lt hb hM hfalse)
        (le_trans_f64 (le_mul_of_one_le hb h1) (le_floatPow h1 n _ (nonnegFloat_mul hb hm)))


/-! ## The envelope loop: number of multiplications -/

theorem envelopeLoop_snd_le (mult max : F64) :
    ∀ (n : Nat) (b : F64), (envelopeLoop mult max n b).2 ≤ n := by
  intro n
  induction n with
  | zero => intro b; simp [envelopeLoop]
  | succ n ih =>
    intro b
    unfold envelopeLoop
    by_cases h : F64.lt b max = true
    · rw [if_pos h]
      exact Nat.le_succ_of_le (ih (F64.mul b mult))
    · rw [if_neg h]

theorem multiplications_succ_of_lt (mult max : F64) (n : Nat) (b : F64)
    (h : F64.lt b max = true) :
    multiplications mult max (n + 1) b = multiplications mult max n (F64.mul b mult) + 1 := by
  have hle := envelopeLoop_snd_le mult max n (F64.mul b mult)
  unfold multiplications
  rw [envelopeLoop, if_pos h]
  omega

theorem multiplications_of_not_lt (mult max : F64) (n : Nat) (b : F64)
    (h : F64.lt b max = false) : multiplications mult max n b = 0 := by
  unfold multiplications
  cases n with
  | zero => simp [envelopeLoop]
  | succ n =>
    rw [envelopeLoop, if_neg (by simp [h])]
    simp

/-- The loop never multiplies more often than it takes the running product
to reach `max`. -/
theorem multiplications_le_of_reached (mult max : F64) :
    ∀ (n : Nat) (b : F64) (k : Nat), F64.lt (floatPow b mult k) max = false →
      multiplications mult max n b ≤ k := by
  intro n
  induction n with
  | zero => intro b k _; simp [multiplications]
  | succ n ih =>
    intro b k hk
    cases h : F64.lt b max with
    | true =>
      cases k with
      | zero =>
        rw [floatPow, h] at hk
        exact absurd hk (by simp)
      | succ k =>
        rw [multiplications_succ_of_lt mult max n b h]
        exact Nat.succ_le_succ (ih (F64.mul b mult) k hk)
    | false =>
      rw [multiplications_of_not_lt mult max (n + 1) b h]
      exact Nat.zero_le k

/-- The loop multiplies exactly `min n k` times when `k` is the first number
of multiplications at which the running product reaches `max`. -/
theorem multiplications_eq_min (mult max : F64) :
    ∀ (n : Nat) (b : F64) (k : Nat), F64.lt (floatPow b mult k) max = false →
      (∀ j, j < k → F64.lt (floatPow b mult j) max = true) →
      multiplications mult max n b = min n k := by
  intro n
  induction n with
  | zero => intro b k _ _; simp [multiplications]
  | succ n ih =>
    intro b k hk hlt
    cases h : F64.lt b max with
    | true =>
      cases k with
      | zero =>
        rw [floatPow, h] at hk
        exact absurd hk (by simp)
      | succ k =>
        rw [multiplications_succ_of_lt mult max n b h]
        have hlt2 : ∀ j, j < k → F64.lt (floatPow (F64.mul b mult) mult j) max = true :=
          fun j hj => hlt (j + 1) (Nat.succ_lt_succ hj)
        rw [ih (F64.mul b mult) k hk hlt2, Nat.succ_min_succ]
    | false =>
      rw [multiplications_of_not_lt mult max (n + 1) b h]
      cases k with
      | zero => simp
      | succ k =>
        have := hlt 0 (Nat.succ_pos k)
        rw [floatPow, h] at this
        exact absurd this (by simp)

/-! ## Growth of the running product -/

theorem exponent_eq (q : ℚ) (e : Int) (h1 : (2 : ℚ) ^ e ≤ |q|) (h2 : |q| < (2 : ℚ) ^ (e + 1))
    (he : -1022 ≤ e) : exponent q = e := by
  have hq : 0 < |q| := lt_of_lt_of_le (zpow_pos (by norm_num) e) h1
  have hlog : Int.log 2 |q| = e := by
    apply le_antisymm
    · have := (Int.lt_zpow_iff_log_lt (b := 2) (by norm_num) hq).mp (by simpa using h2)
      omega
    · exact (Int.zpow_le_iff_le_log (b := 2) (by norm_num) hq).mp (by simpa using h1)
  unfold exponent
  rw [hlog]
  exact max_eq_left he

theorem exponent_nonneg_of_one_le {q : ℚ} (h : 1 ≤ q) : 0 ≤ exponent q := by
  have hq : 0 < |q| := lt_of_lt_of_le one_pos (le_trans h (le_abs_self q))
  have : (0 : Int) ≤ Int.log 2 |q| :=
    (Int.zpow_le_iff_le_log (b := 2) (by norm_num) hq).mp
      (by simpa using le_trans h (le_abs_self q))
  exact le_trans this (le_max_left _ _)

/-- The `float64` after a positive `float64` `q` is `q + ulp q`. -/
theorem roundFin_add_ulp {q : ℚ} (hq : 0 < q) (hf : roundFin q = q) :
    roundFin (q + ulp q) = q + ulp q := by
  have hu := ulp_pos q
  have hge := exponent_ge q
  have hgrid : q = (roundHalfEven (q / ulp q) : ℚ) * ulp q := by
    conv_lhs => rw [← hf]
    rfl
  have hlt : (roundHalfEven (q / ulp q) : ℚ) < 9007199254740992 := by
    have h := abs_lt_two_zpow_exponent_succ q
    have hu2 : (2 : ℚ) ^ (exponent q + 1) = 9007199254740992 * ulp q := by
      unfold ulp
      rw [show exponent q + 1 = 53 + (exponent q - 52) by ring,
        zpow_add₀ (by norm_num : (2 : ℚ) ≠ 0)]
      norm_num
    rw [hu2, abs_of_pos hq] at h
    have h3 : (roundHalfEven (q / ulp q) : ℚ) * ulp q < 9007199254740992 * ulp q := by
      rw [← hgrid]
      exact h
    exact lt_of_mul_lt_mul_right h3 hu.le
  have hpos : (0 : ℚ) < (roundHalfEven (q / ulp q) : ℚ) := by
    by_contra hneg
    have : (roundHalfEven (q / ulp q) : ℚ) * ulp q ≤ 0 :=
      mul_nonpos_of_nonpos_of_nonneg (not_lt.mp hneg) hu.le
    linarith
  have hlt2 : roundHalfEven (q / ulp q) < 9007199254740992 := by exact_mod_cast hlt
  have hpos2 : 0 < roundHalfEven (q / ulp q) := by exact_mod_cast hpos
  have hsum : q + ulp q =
      ((roundHalfEven (q / ulp q) + 1 : Int) : ℚ) * (2 : ℚ) ^ (exponent q - 52) := by
    push_cast
    have : ulp q = (2 : ℚ) ^ (exponent q - 52) := rfl
    rw [← this]
    linarith
  rcases lt_or_eq_of_le (Int.add_one_le_iff.mpr hlt2) with h | h
  · exact roundFin_of_grid _ _ _ hsum (by rw [abs_lt]; constructor <;> omega) (by omega)
  · apply roundFin_of_grid _ 4503599627370496 (exponent q - 51) _ (by norm_num) (by omega)
    rw [hsum, h, show exponent q - 51 = 1 + (exponent q - 52) by ring,
      zpow_add₀ (by norm_num : (2 : ℚ) ≠ 0)]
    norm_num
    ring

/-- A `float64` above one is at least `1 + 2^-52`. -/
theorem one_add_eps_le {m : ℚ} (hm : 1 < m) (hmf : round64 m = F64.fin m) :
    1 + (2 : ℚ) ^ (-52 : Int) ≤ m := by
  have h52 : (2 : ℚ) ^ (-52 : Int) = 1 / 4503599627370496 := by
    rw [zpow_neg]
    norm_num
  rw [h52]
  by_contra hcon
  have hlt : m < 1 + 1 / 4503599627370496 := not_le.mp hcon
  have hexp : exponent m = 0 := by
    apply exponent_eq m 0
    · rw [abs_of_pos (by linarith)]
      simpa using hm.le
    · rw [abs_of_pos (by linarith)]
      have : (2 : ℚ) ^ ((0 : Int) + 1) = 2 := by norm_num
      rw [this]
      linarith
    · norm_num
  have hf : m = roundFin m := (round64_eq_fin hmf).1
  have hu : ulp m = 1 / 4503599627370496 := by
    unfold ulp
    rw [hexp]
    exact h52
  unfold roundFin at hf
  rw [hu] at hf
  have h1 : (4503599627370496 : ℚ) < (roundHalfEven (m / (1 / 4503599627370496)) : ℚ) := by
    rw [hf] at hm
    linarith
  have h2 : (4503599627370496 : Int) < roundHalfEven (m / (1 / 4503599627370496)) := by
    exact_mod_cast h1
  have h3 : ((4503599627370497 : Int) : ℚ) ≤
      (roundHalfEven (m / (1 / 4503599627370496)) : ℚ) := by
    exact_mod_cast Int.add_one_le_iff.mpr h2
  push_cast at h3
  rw [hf] at hlt
  linarith

theorem atLeast_mono {c d : ℚ} {x : F64} (h : d ≤ c) (hx : F64.AtLeast c x) : F64.AtLeast d x := by
  rcases hx with rfl | ⟨q, rfl, hq, hqf⟩
  · exact Or.inl rfl
  · exact Or.inr ⟨q, rfl, le_trans h hq, hqf⟩

/-- Multiplying a `float64` of at least one by a `float64` above one moves
it up by at least `2^-52`, or to `+Inf`. -/
theorem atLeast_mul {c m : ℚ} {b : F64} (hc : 1 ≤ c) (hm : 1 < m)
    (hmf : round64 m = F64.fin m) (hb : F64.AtLeast c b) :
    F64.AtLeast (c + (2 : ℚ) ^ (-52 : Int)) (F64.mul b (F64.fin m)) := by
  have hm0 : 0 < m := lt_trans one_pos hm
  rcases hb with rfl | ⟨q, rfl, hq, hqf⟩
  · left
    show (if m = 0 then F64.nan else if 0 < m then F64.pinf else F64.ninf) = F64.pinf
    rw [if_neg hm0.ne', if_pos hm0]
  · have hq1 : 1 ≤ q := le_trans hc hq
    have hq0 : 0 < q := lt_of_lt_of_le one_pos hq1
    have hme := one_add_eps_le hm hmf
    have hf : roundFin q = q := (round64_eq_fin hqf).1.symm
    have he := exponent_nonneg_of_one_le hq1
    have hu1 : (2 : ℚ) ^ (-52 : Int) ≤ ulp q := by
      unfold ulp
      exact zpow_le_zpow_right₀ (by norm_num) (by omega)
    have hu2 : ulp q ≤ q * (2 : ℚ) ^ (-52 : Int) := by
      unfold ulp
      rw [show exponent q - 52 = exponent q + (-52) by ring,
        zpow_add₀ (by norm_num : (2 : ℚ) ≠ 0)]
      have h2 := two_zpow_exponent_le_abs hq0.ne' (by omega)
      rw [abs_of_pos hq0] at h2
      exact mul_le_mul_of_nonneg_right h2 (zpow_pos (by norm_num) _).le
    have hle : q + ulp q ≤ q * m := by
      have : q * (1 + (2 : ℚ) ^ (-52 : Int)) ≤ q * m := mul_le_mul_of_nonneg_left hme hq0.le
      linarith
    have hmono := roundFin_mono hle
    rw [roundFin_add_ulp hq0 hf] at hmono
    rw [mul_fin_fin]
    rcases round64_cases (q * m) with ⟨h1, _⟩ | ⟨_, h2⟩ | ⟨h1, _, _⟩
    · exact Or.inl h1
    · exfalso
      have : (0 : ℚ) < (2 : ℚ) ^ (1024 : Nat) := by positivity
      have := ulp_pos q
      linarith
    · exact Or.inr ⟨_, h1, by linarith, round64_fin_idem h1⟩

theorem atLeast_floatPow {m : ℚ} (hm : 1 < m) (hmf : round64 m = F64.fin m) :
    ∀ (n : Nat) (b : F64) (c : ℚ), 1 ≤ c → F64.AtLeast c b →
      F64.AtLeast (c + (n : ℚ) * (2 : ℚ) ^ (-52 : Int)) (floatPow b (F64.fin m) n) := by
  intro n
  induction n with
  | zero =>
    intro b c _ hb
    simpa [floatPow] using hb
  | succ n ih =>
    intro b c hc hb
    rw [floatPow]
    have hpos : (0 : ℚ) < (2 : ℚ) ^ (-52 : Int) := zpow_pos (by norm_num) _
    have := ih _ _ (by linarith) (atLeast_mul hc hm hmf hb)
    refine atLeast_mono ?_ this
    push_cast
    linarith

/-- The running product of a `float64` of at least one with a `float64`
above one reaches `+Inf`. -/
theorem floatPow_overflow {m : ℚ} (hm : 1 < m) (hmf : round64 m = F64.fin m) {b : F64}
    (hb : F64.AtLeast 1 b) : ∃ k : Nat, floatPow b (F64.fin m) k = F64.pinf := by
  refine ⟨2 ^ 1076, ?_⟩
  rcases atLeast_floatPow hm hmf (2 ^ 1076) b 1 (le_refl 1) hb with h | ⟨q, _, hq, hqf⟩
  · exact h
  · exfalso
    have h1 := (round64_eq_fin hqf).2.2
    have h2 : (((2 ^ 1076 : Nat) : ℚ)) * (2 : ℚ) ^ (-52 : Int) = (2 : ℚ) ^ (1024 : Nat) := by
      rw [Nat.cast_pow, Nat.cast_ofNat, ← zpow_natCast, ← zpow_natCast,
        ← zpow_add₀ (by norm_num : (2 : ℚ) ≠ 0)]
      rfl
    rw [h2] at hq
    linarith

theorem atLeast_ofInt {i : Int} (h : 0 < i) : F64.AtLeast 1 (F64.ofInt i) := by
  have h1 : (1 : ℚ) ≤ (i : ℚ) := by exact_mod_cast h
  have hmono := roundFin_mono h1
  have hone : roundFin 1 = 1 := (round64_eq_fin round64_one).1.symm
  rw [hone] at hmono
  unfold F64.ofInt
  rcases round64_cases (i : ℚ) with ⟨h1, _⟩ | ⟨_, h2⟩ | ⟨h1, _, _⟩
  · exact Or.inl h1
  · exfalso
    have : (0 : ℚ) < (2 : ℚ) ^ (1024 : Nat) := by positivity
    linarith
  · exact Or.inr ⟨_, h1, hmono, round64_fin_idem h1⟩

theorem lt_pinf_left (x : F64) : F64.lt F64.pinf x = false := by
  cases x <;> rfl

/-- The running product of integers: as long as `b * k ^ n` stays below
`2^53` every multiplication is exact. -/
theorem floatPow_intCast (k : Nat) (hk : 1 ≤ k) :
    ∀ (n : Nat) (b : Int), 0 ≤ b → b * (k : Int) ^ n < 9007199254740992 →
      floatPow (F64.fin (b : ℚ)) (F64.fin (k : ℚ)) n = F64.fin ((b * (k : Int) ^ n : Int) : ℚ) := by
  intro n
  induction n with
  | zero =>
    intro b _ _
    simp [floatPow]
  | succ n ih =>
    intro b hb hlt
    have hk0 : (0 : Int) ≤ (k : Int) := Int.natCast_nonneg k
    have hk1 : (1 : Int) ≤ (k : Int) := by exact_mod_cast hk
    have hpow : (1 : Int) ≤ (k : Int) ^ n := one_le_pow₀ hk1
    have hbk : 0 ≤ b * (k : Int) := mul_nonneg hb hk0
    have heq : b * (k : Int) ^ (n + 1) = b * (k : Int) * (k : Int) ^ n := by ring
    have hle : b * (k : Int) ≤ b * (k : Int) * (k : Int) ^ n := le_mul_of_one_le_right hbk hpow
    rw [floatPow, mul_fin_fin]
    have hr : round64 ((b : ℚ) * (k : ℚ)) = F64.fin (((b * (k : Int) : Int)) : ℚ) := by
      have := round64_intCast (b * (k : Int)) (by rw [abs_of_nonneg hbk]; omega)
      push_cast at this ⊢
      exact this
    rw [hr, ih (b * (k : Int)) hbk (by omega), heq]

/-! ## The delay of attempt 0, construction and defaulting: claims -/

/-- C1: for every configuration and every random draw the delay of attempt 0
is the base delay itself, with no jitter and no clamp: `Exponential.Backoff`
returns `Config.BaseDelay`, and the v2 `Backoff` returns `BaseDelay` after
defaulting, which is one second when the field was 0. -/
theorem C1_attempt_zero_is_base_delay (bc : Exponential) (bo : v2.Backoff) (rnd : F64) :
    bc.Backoff rnd 0 = bc.Config.BaseDelay ∧
      (bo.Backoff rnd 0).1 = (if bo.BaseDelay = 0 then Second else bo.BaseDelay) := by
  constructor
  · simp [Exponential.Backoff]
  · simp [v2.Backoff.Backoff, v2.fill_BaseDelay]

/-- C14 fails on the code: `NewExponential` fills the given configuration
and then returns a policy that points to `DefaultConfig`, so every policy it
returns is `DefaultExponential`; for a configuration with `BaseDelay = 5s`
the delay of attempt 0 is `1s`, not `5s`. -/
theorem C14_NewExponential_returns_default :
    (∀ cfg : Option Config, NewExponential cfg = DefaultExponential) ∧
    (NewExponential (some ⟨5000000000, F64.fin 2, F64.lit (1 / 10), 60000000000⟩)).Backoff
      (F64.fin 0) 0 = 1000000000 ∧
    (fillDefaultConfig (some ⟨5000000000, F64.fin 2, F64.lit (1 / 10), 60000000000⟩)).BaseDelay =
      5000000000 := by
  refine ⟨fun _ => rfl, ?_, ?_⟩
  · simp [NewExponential, Exponential.Backoff, DefaultConfig, Second]
  · rw [(fillDefaultConfig_fields _).1]
    simp

/-- C15: for a non-nil configuration each field of the result of
`fillDefaultConfig` is the `DefaultConfig` value (1s, 1.6, 0.2, 120s) when
the given field is zero and the given field otherwise; for a nil
configuration the result is `DefaultConfig`; and no field of the result is
zero. -/
theorem C15_fillDefaultConfig_fills_zero_fields (c : Config) :
    ((fillDefaultConfig (some c)).BaseDelay =
        (if c.BaseDelay = 0 then 1000000000 else c.BaseDelay) ∧
      (fillDefaultConfig (some c)).Multiplier =
        (if c.Multiplier = F64.fin 0 then F64.lit (8 / 5) else c.Multiplier) ∧
      (fillDefaultConfig (some c)).Jitter =
        (if c.Jitter = F64.fin 0 then F64.lit (1 / 5) else c.Jitter) ∧
      (fillDefaultConfig (some c)).MaxDelay =
        (if c.MaxDelay = 0 then 120000000000 else c.MaxDelay)) ∧
    (fillDefaultConfig none = DefaultConfig ∧
      DefaultConfig = ⟨1000000000, F64.lit (8 / 5), F64.lit (1 / 5), 120000000000⟩) ∧
    (∀ cfg : Option Config,
      (fillDefaultConfig cfg).BaseDelay ≠ 0 ∧ (fillDefaultConfig cfg).Multiplier ≠ F64.fin 0 ∧
      (fillDefaultConfig cfg).Jitter ≠ F64.fin 0 ∧ (fillDefaultConfig cfg).MaxDelay ≠ 0) := by
  have hdef : DefaultConfig = ⟨1000000000, F64.lit (8 / 5), F64.lit (1 / 5), 120000000000⟩ := by
    simp [DefaultConfig, Second]
  refine ⟨fillDefaultConfig_fields c, ⟨rfl, hdef⟩, ?_⟩
  intro cfg
  cases cfg with
  | none =>
    show DefaultConfig.BaseDelay ≠ 0 ∧ DefaultConfig.Multiplier ≠ F64.fin 0 ∧
      DefaultConfig.Jitter ≠ F64.fin 0 ∧ DefaultConfig.MaxDelay ≠ 0
    rw [hdef]
    exact ⟨by norm_num, lit_eight_fifths_ne_zero, lit_one_fifth_ne_zero, by norm_num⟩
  | some d =>
    obtain ⟨e1, e2, e3, e4⟩ := fillDefaultConfig_fields d
    rw [e1, e2, e3, e4]
    refine ⟨?_, ?_, ?_, ?_⟩
    · split_ifs with h
      · norm_num
      · exact h
    · split_ifs with h
      · exact lit_eight_fifths_ne_zero
      · exact h
    · split_ifs with h
      · exact lit_one_fifth_ne_zero
      · exact h
    · split_ifs with h
      · norm_num
      · exact h

/-- C16, as stated, fails: after a call on the value with all fields zero
except `Multiplier = 1/2`, the zero `Jitter` is still 0, not `0.2`, and the
non-zero `Multiplier` `1/2` has been replaced by `1.6`. -/
theorem C16_counterexample :
    (v2.Backoff.Backoff ⟨0, F64.fin (1 / 2), F64.fin 0, 0⟩ (F64.fin 0) 1).2 =
      ⟨1000000000, F64.lit (8 / 5), F64.fin 0, 30000000000⟩ ∧
    (v2.Backoff.Backoff ⟨0, F64.fin (1 / 2), F64.fin 0, 0⟩ (F64.fin 0) 1).2.Jitter ≠
      F64.lit (1 / 5) ∧
    (v2.Backoff.Backoff ⟨0, F64.fin (1 / 2), F64.fin 0, 0⟩ (F64.fin 0) 1).2.Multiplier ≠
      F64.fin (1 / 2) := by
  have hlt : F64.lt (F64.fin 2⁻¹) (F64.fin 1) = true := by
    simp only [F64.lt, decide_eq_true_eq]
    norm_num
  have h : (v2.Backoff.Backoff ⟨0, F64.fin (1 / 2), F64.fin 0, 0⟩ (F64.fin 0) 1).2 =
      ⟨1000000000, F64.lit (8 / 5), F64.fin 0, 30000000000⟩ := by
    rw [v2.Backoff_snd]
    simp [v2.Backoff.fill, hlt, Second]
  refine ⟨h, ?_, ?_⟩
  · rw [h]
    exact fun e => lit_one_fifth_ne_zero e.symm
  · rw [h, lit_eight_fifths]
    intro e
    injection e with e
    norm_num at e

/-- C16 (amended): after any call of the v2 `Backoff`, `BaseDelay` is one
second if it was zero and unchanged otherwise, `MaxDelay` is 30 seconds if
it was zero and unchanged otherwise, `Multiplier` is `1.6` if it was below 1
(zero included) and unchanged otherwise, and `Jitter` is unchanged, a zero
`Jitter` included. -/
theorem C16_v2_defaulting_frame (bo : v2.Backoff) (rnd : F64) (retries : Int) :
    (bo.Backoff rnd retries).2.BaseDelay =
      (if bo.BaseDelay = 0 then 1000000000 else bo.BaseDelay) ∧
    (bo.Backoff rnd retries).2.MaxDelay =
      (if bo.MaxDelay = 0 then 30000000000 else bo.MaxDelay) ∧
    (bo.Backoff rnd retries).2.Multiplier =
      (if F64.lt bo.Multiplier (F64.fin 1) = true then F64.lit (8 / 5) else bo.Multiplier) ∧
    (bo.Backoff rnd retries).2.Jitter = bo.Jitter := by
  rw [v2.Backoff_snd, v2.fill_BaseDelay, v2.fill_MaxDelay, v2.fill_Multiplier, v2.fill_Jitter]
  simp [Second]

/-- C19, as stated, fails: a `Multiplier` that is not a number passes the
test `Multiplier < 1` and stays as it is, so after the call `Multiplier ≥ 1`
does not hold. -/
theorem C19_counterexample :
    (v2.Backoff.Backoff ⟨0, F64.nan, F64.fin 0, 0⟩ (F64.fin 0) 0).2.Multiplier = F64.nan ∧
    F64.le (F64.fin 1)
      (v2.Backoff.Backoff ⟨0, F64.nan, F64.fin 0, 0⟩ (F64.fin 0) 0).2.Multiplier = false := by
  have h : (v2.Backoff.Backoff ⟨0, F64.nan, F64.fin 0, 0⟩ (F64.fin 0) 0).2.Multiplier =
      F64.nan := by
    rw [v2.Backoff_snd, v2.fill_Multiplier]
    simp [F64.lt]
  refine ⟨h, ?_⟩
  rw [h]
  rfl

/-- C19 (amended): after any call of the v2 `Backoff` the receiver has
`BaseDelay ≠ 0`, `MaxDelay ≠ 0` and a `Multiplier` that is not below 1, which
is at least 1 unless it was not a number; every later call leaves the
receiver as it is; and with `Jitter = 0` a second call `Backoff(r)` on the
same receiver returns what the first returned, whatever the two draws in
`[0, 1)`. -/
theorem C19_v2_defaulting_is_stable (bo : v2.Backoff) (rnd : F64) (retries : Int) :
    (bo.Backoff rnd retries).2.BaseDelay ≠ 0 ∧
    (bo.Backoff rnd retries).2.MaxDelay ≠ 0 ∧
    F64.lt (bo.Backoff rnd retries).2.Multiplier (F64.fin 1) = false ∧
    (bo.Multiplier ≠ F64.nan →
      F64.le (F64.fin 1) (bo.Backoff rnd retries).2.Multiplier = true) ∧
    (∀ (rnd2 : F64) (retries2 : Int),
      ((bo.Backoff rnd retries).2.Backoff rnd2 retries2).2 = (bo.Backoff rnd retries).2) ∧
    (bo.Jitter = F64.fin 0 → ∀ r r2 : ℚ, 0 ≤ r → r < 1 → 0 ≤ r2 → r2 < 1 →
      ((bo.Backoff (F64.fin r) retries).2.Backoff (F64.fin r2) retries).1 =
        (bo.Backoff (F64.fin r) retries).1) := by
  rw [v2.Backoff_snd]
  refine ⟨v2.fill_BaseDelay_ne_zero bo, v2.fill_MaxDelay_ne_zero bo,
    v2.fill_Multiplier_not_lt_one bo, ?_, ?_, ?_⟩
  · intro hnan
    rw [v2.fill_Multiplier]
    split_ifs with h
    · exact lit_eight_fifths_ge_one
    · cases hm : bo.Multiplier with
      | nan => exact absurd hm hnan
      | ninf => rw [hm] at h; simp [F64.lt] at h
      | fin q =>
        rw [hm] at h
        simp only [F64.lt, decide_eq_true_eq, not_lt] at h
        simpa [F64.le] using h
      | pinf => rfl
  · intro rnd2 retries2
    rw [v2.Backoff_snd, v2.fill_fill]
  · intro hJ r r2 hr0 hr1 hs0 hs1
    have hJ2 : bo.fill.Jitter = F64.fin 0 := by rw [v2.fill_Jitter]; exact hJ
    rw [v2.Backoff_snd]
    simp only [v2.Backoff.Backoff, v2.fill_fill, jittered, hJ2, jitter_factor_zero hr0 hr1,
      jitter_factor_zero hs0 hs1]


/-! ## The envelope bound: claims -/

/-- C2, as stated, fails in two ways.  With `BaseDelay = MaxDelay =
2^54 + 3` ns and `Jitter = 0`, `float64(MaxDelay)` rounds up to `2^54 + 4`
and attempt 1 returns `2^54 + 4` ns, above `MaxDelay * (1 + Jitter)`.  With
`BaseDelay = MaxDelay = 8e18` ns, `Jitter = 1/2` and the draw `3/4` the
jittered value `1e19` does not fit in an `int64` and attempt 1 returns the
least `int64`, below 0. -/
theorem C2_counterexample :
    (Exponential.Backoff ⟨⟨18014398509481987, F64.fin 2, F64.fin 0, 18014398509481987⟩⟩
        (F64.fin 0) 1 = 18014398509481988 ∧
      ¬ (((18014398509481988 : Int) : ℚ) ≤ ((18014398509481987 : Int) : ℚ) * (1 + 0))) ∧
    (Exponential.Backoff ⟨⟨8000000000000000000, F64.fin 2, F64.fin (1 / 2),
        8000000000000000000⟩⟩ (F64.fin (3 / 4)) 1 = -9223372036854775808 ∧
      ¬ ((0 : Int) ≤ -9223372036854775808)) := by
  refine ⟨⟨?_, by norm_num⟩, ⟨?_, by norm_num⟩⟩
  · have hb : F64.ofInt 18014398509481987 = F64.fin 18014398509481988 := by
      unfold F64.ofInt
      apply round64_eval _ 54 4503599627370497
      · norm_num [abs_of_pos]
      · norm_num [abs_of_pos]
      · norm_num
      · norm_num [abs_lt]
      · norm_num
      · norm_num
      · norm_num
    have hloop : (envelopeLoop (F64.fin 2) (F64.fin 18014398509481988) 1
        (F64.fin 18014398509481988)).1 = F64.fin 18014398509481988 := by
      rw [envelopeLoop, lt_fin_fin]
      norm_num
    have hclamp : clamp (F64.fin 18014398509481988) (F64.fin 18014398509481988) =
        F64.fin 18014398509481988 := by
      unfold clamp
      rw [lt_fin_fin]
      norm_num
    rw [Exponential.Backoff_zero_jitter _ _ _ 0 1 (le_refl 0) (by norm_num) (by norm_num),
      hb, Int.toNat_one, hloop, hclamp, mul_fin_one, round64_fin_idem hb,
      delay_of_range (by norm_num) (by norm_num)]
    exact_mod_cast floor_intCast_rat 18014398509481988
  · have hb : F64.ofInt 8000000000000000000 = F64.fin 8000000000000000000 := by
      unfold F64.ofInt
      exact round64_of_grid _ 3814697265625 21 (by norm_num) (by norm_num) (by norm_num)
        (by norm_num) (by norm_num)
    have hloop : (envelopeLoop (F64.fin 2) (F64.fin 8000000000000000000) 1
        (F64.fin 8000000000000000000)).1 = F64.fin 8000000000000000000 := by
      rw [envelopeLoop, lt_fin_fin]
      norm_num
    have hclamp : clamp (F64.fin 8000000000000000000) (F64.fin 8000000000000000000) =
        F64.fin 8000000000000000000 := by
      unfold clamp
      rw [lt_fin_fin]
      norm_num
    have h1 : round64 ((3 / 4 : ℚ) * 2) = F64.fin (3 / 2) := by
      rw [show (3 / 4 : ℚ) * 2 = 3 / 2 by norm_num]
      exact round64_of_grid _ 3 (-1) (by norm_num) (by norm_num) (by norm_num) (by norm_num)
        (by norm_num)
    have h2 : round64 ((3 / 2 : ℚ) + -1) = F64.fin (1 / 2) := by
      rw [show (3 / 2 : ℚ) + -1 = 1 / 2 by norm_num]
      exact round64_of_grid _ 1 (-1) (by norm_num) (by norm_num) (by norm_num) (by norm_num)
        (by norm_num)
    have h3 : round64 ((1 / 2 : ℚ) * (1 / 2)) = F64.fin (1 / 4) := by
      rw [show (1 / 2 : ℚ) * (1 / 2) = 1 / 4 by norm_num]
      exact round64_of_grid _ 1 (-2) (by norm_num) (by norm_num) (by norm_num) (by norm_num)
        (by norm_num)
    have h4 : round64 ((1 : ℚ) + 1 / 4) = F64.fin (5 / 4) := by
      rw [show (1 : ℚ) + 1 / 4 = 5 / 4 by norm_num]
      exact round64_of_grid _ 5 (-2) (by norm_num) (by norm_num) (by norm_num) (by norm_num)
        (by norm_num)
    have h5 : round64 ((8000000000000000000 : ℚ) * (5 / 4)) = F64.fin 10000000000000000000 := by
      rw [show (8000000000000000000 : ℚ) * (5 / 4) = 10000000000000000000 by norm_num]
      exact round64_of_grid _ 19073486328125 19 (by norm_num) (by norm_num) (by norm_num)
        (by norm_num) (by norm_num)
    have hguard : F64.lt (F64.fin 10000000000000000000) (F64.fin 0) = false := by
      rw [lt_fin_fin]
      norm_num
    simp only [Exponential.Backoff, one_ne_zero, if_false, jittered, hb, Int.toNat_one, hloop,
      hclamp]
    rw [mul_fin_fin (3 / 4) 2, h1, sub_fin_fin, h2, mul_fin_fin (1 / 2) (1 / 2), h3,
      add_fin_fin, h4, mul_fin_fin, h5, hguard]
    simpa using toDuration_of_large (show (9223372036854775808 : ℚ) ≤ 10000000000000000000 by
      norm_num)

/-- C2 (amended): with `BaseDelay ≥ 0`, `Multiplier > 0`, `MaxDelay > 0`, a
`Jitter` in `[0, 1]`, `retries ≥ 1` and a draw in `[0, 1)`, the delay
returned by either package lies in `[0, H]`, where `H` is
`float64(MaxDelay) * (1 + Jitter)` as `float64` arithmetic computes it,
provided `H` is below `2^63` nanoseconds. -/
theorem C2_delay_within_envelope (base maxDelay : Int) (m j r H : ℚ) (retries : Int)
    (hbase : 0 ≤ base) (hm : 0 < m) (hmax : 0 < maxDelay)
    (hj0 : 0 ≤ j) (hj1 : j ≤ 1) (hjf : round64 j = F64.fin j) (hret : 1 ≤ retries)
    (hr0 : 0 ≤ r) (hr1 : r < 1)
    (hH : F64.mul (F64.ofInt maxDelay) (F64.add (F64.fin 1) (F64.fin j)) = F64.fin H)
    (hH2 : H < 9223372036854775808) :
    (0 ≤ Exponential.Backoff ⟨⟨base, F64.fin m, F64.fin j, maxDelay⟩⟩ (F64.fin r) retries ∧
      ((Exponential.Backoff ⟨⟨base, F64.fin m, F64.fin j, maxDelay⟩⟩ (F64.fin r) retries : Int) :
        ℚ) ≤ H) ∧
    (0 ≤ (v2.Backoff.Backoff ⟨base, F64.fin m, F64.fin j, maxDelay⟩ (F64.fin r) retries).1 ∧
      (((v2.Backoff.Backoff ⟨base, F64.fin m, F64.fin j, maxDelay⟩ (F64.fin r) retries).1 :
        Int) : ℚ) ≤ H) := by
  have hne : retries ≠ 0 := by omega
  constructor
  · obtain ⟨x, hx, hx0, hxH⟩ := jittered_bounds base maxDelay m j r H retries hbase hm
      (le_of_lt hmax) hj0 hj1 hjf hr0 hr1 hH
    simp only [Exponential.Backoff, if_neg hne, hx]
    exact delay_within hx0 hxH hH2
  · obtain ⟨b2, m2, hfill, hb2, hm2⟩ :=
      v2.fill_of_positive base maxDelay m (F64.fin j) hbase hm (ne_of_gt hmax)
    obtain ⟨x, hx, hx0, hxH⟩ := jittered_bounds b2 maxDelay m2 j r H retries hb2 hm2
      (le_of_lt hmax) hj0 hj1 hjf hr0 hr1 hH
    simp only [v2.Backoff.Backoff, hfill, if_neg hne, hx]
    exact delay_within hx0 hxH hH2

/-- Witness of C2 at base delay 1s, multiplier 1.5, jitter 1/4, maximum
120s, attempt 3 and the draw `1/2`: the bound is 150s. -/
theorem C2_delay_within_envelope_witness :
    (0 ≤ Exponential.Backoff ⟨⟨1000000000, F64.fin (3 / 2), F64.fin (1 / 4), 120000000000⟩⟩
        (F64.fin (1 / 2)) 3 ∧
      ((Exponential.Backoff ⟨⟨1000000000, F64.fin (3 / 2), F64.fin (1 / 4), 120000000000⟩⟩
        (F64.fin (1 / 2)) 3 : Int) : ℚ) ≤ 150000000000) ∧
    (0 ≤ (v2.Backoff.Backoff ⟨1000000000, F64.fin (3 / 2), F64.fin (1 / 4), 120000000000⟩
        (F64.fin (1 / 2)) 3).1 ∧
      (((v2.Backoff.Backoff ⟨1000000000, F64.fin (3 / 2), F64.fin (1 / 4), 120000000000⟩
        (F64.fin (1 / 2)) 3).1 : Int) : ℚ) ≤ 150000000000) :=
  C2_delay_within_envelope 1000000000 120000000000 (3 / 2) (1 / 4) (1 / 2) 150000000000 3
    (by decide) (by norm_num) (by decide) (by norm_num) (by norm_num)
    (round64_of_grid _ 1 (-2) (by norm_num) (by norm_num) (by norm_num) (by norm_num)
      (by norm_num))
    (by decide) (by norm_num) (by norm_num)
    (by
      have hmx : F64.ofInt 120000000000 = F64.fin 120000000000 := by
        simpa using ofInt_small 120000000000 (by norm_num)
      have h1 : round64 ((1 : ℚ) + 1 / 4) = F64.fin (5 / 4) := by
        rw [show (1 : ℚ) + 1 / 4 = 5 / 4 by norm_num]
        exact round64_of_grid _ 5 (-2) (by norm_num) (by norm_num) (by norm_num) (by norm_num)
          (by norm_num)
      have h2 : round64 ((120000000000 : ℚ) * (5 / 4)) = F64.fin 150000000000 := by
        rw [show (120000000000 : ℚ) * (5 / 4) = 150000000000 by norm_num]
        simpa using round64_intCast 150000000000 (by norm_num)
      rw [hmx, add_fin_fin, h1, mul_fin_fin, h2])
    (by norm_num)


/-- C3, as stated, fails: with `BaseDelay = 10s`, `Multiplier = 1/4`,
`Jitter = 0`, `MaxDelay = 5s` and `retries = 1` the loop is never entered
(the base delay already reaches the maximum), the clamp gives `5s`, while
`min (BaseDelay * Multiplier ^ 1) MaxDelay` is `2.5s`. -/
theorem C3_counterexample :
    Exponential.Backoff ⟨⟨10000000000, F64.fin (1 / 4), F64.fin 0, 5000000000⟩⟩ (F64.fin 0) 1 =
      5000000000 ∧
    Int.floor (min ((10000000000 : ℚ) * (1 / 4) ^ (1 : Int).toNat) 5000000000) =
      2500000000 := by
  have hb : F64.ofInt 10000000000 = F64.fin 10000000000 := by
    simpa using ofInt_small 10000000000 (by norm_num)
  have hm : F64.ofInt 5000000000 = F64.fin 5000000000 := by
    simpa using ofInt_small 5000000000 (by norm_num)
  have hm2 : round64 5000000000 = F64.fin 5000000000 := by
    simpa using round64_intCast 5000000000 (by norm_num)
  constructor
  · have hloop : (envelopeLoop (F64.fin (1 / 4)) (F64.fin 5000000000) 1
        (F64.fin 10000000000)).1 = F64.fin 10000000000 := by
      rw [envelopeLoop, lt_fin_fin]
      norm_num
    have hclamp : clamp (F64.fin 10000000000) (F64.fin 5000000000) = F64.fin 5000000000 := by
      unfold clamp
      rw [lt_fin_fin]
      norm_num
    rw [Exponential.Backoff_zero_jitter _ _ _ 0 1 (le_refl 0) (by norm_num) (by norm_num),
      hb, hm, Int.toNat_one, hloop, hclamp, mul_fin_one, hm2,
      delay_of_range (by norm_num) (by norm_num)]
    exact_mod_cast floor_intCast_rat 5000000000
  · rw [Int.floor_eq_iff]
    norm_num


/-! ## Zero jitter: claims -/

/-- C3 (amended): for `Exponential.Backoff` with `Jitter = 0`,
`BaseDelay ≥ 0`, `Multiplier > 0`, `MaxDelay > 0`, `retries ≥ 1` and a draw
in `[0, 1)`, provided `Multiplier ≥ 1` or the base delay is below the
maximum, the result does not depend on the draw: it is the conversion to
`time.Duration` of the smaller of `float64(MaxDelay)` and the product of
`float64(BaseDelay)` with `retries` factors `Multiplier`, each
multiplication rounded to `float64`.  When the multiplier is a natural
number `k` and `BaseDelay * k ^ retries` and `MaxDelay` are below `2^53`
this is `min (BaseDelay * k ^ retries) MaxDelay`. -/
theorem C3_zero_jitter_delay (base maxDelay : Int) (m r : ℚ) (retries : Int)
    (hbase : 0 ≤ base) (hm : 0 < m) (hmax : 0 < maxDelay) (hret : 1 ≤ retries)
    (hr0 : 0 ≤ r) (hr1 : r < 1)
    (hcase : 1 ≤ m ∨ F64.lt (F64.ofInt base) (F64.ofInt maxDelay) = true) :
    Exponential.Backoff ⟨⟨base, F64.fin m, F64.fin 0, maxDelay⟩⟩ (F64.fin r) retries =
      toDuration (clamp (floatPow (F64.ofInt base) (F64.fin m) retries.toNat)
        (F64.ofInt maxDelay)) ∧
    (∀ k : Nat, m = (k : ℚ) → base * (k : Int) ^ retries.toNat < 9007199254740992 →
      maxDelay < 9007199254740992 →
      Exponential.Backoff ⟨⟨base, F64.fin m, F64.fin 0, maxDelay⟩⟩ (F64.fin r) retries =
        min (base * (k : Int) ^ retries.toNat) maxDelay) := by
  have hB := nonnegFloat_ofInt hbase
  have hM := nonnegFloat_ofInt hmax.le
  have hN := clamp_nonnegFloat_both (nonnegFloat_floatPow hm retries.toNat _ hB) hM
  have hmain : Exponential.Backoff ⟨⟨base, F64.fin m, F64.fin 0, maxDelay⟩⟩ (F64.fin r) retries =
      toDuration (clamp (floatPow (F64.ofInt base) (F64.fin m) retries.toNat)
        (F64.ofInt maxDelay)) := by
    rw [Exponential.Backoff_zero_jitter _ _ _ r retries hr0 hr1 (by omega),
      clamp_envelopeLoop hm hM retries.toNat _ hB hcase, nonnegFloat_mul_one hN,
      nonnegFloat_not_lt_zero hN]
    simp
  refine ⟨hmain, ?_⟩
  intro k hk hlt hmaxlt
  have hk1 : 1 ≤ k := by
    rw [hk] at hm
    have : (0 : ℚ) < (k : ℚ) := hm
    have : 0 < k := by exact_mod_cast this
    omega
  have hk2 : (1 : Int) ≤ (k : Int) := by exact_mod_cast hk1
  have hpow : (1 : Int) ≤ (k : Int) ^ retries.toNat := one_le_pow₀ hk2
  have hble : base ≤ base * (k : Int) ^ retries.toNat := le_mul_of_one_le_right hbase hpow
  have hP0 : 0 ≤ base * (k : Int) ^ retries.toNat := le_trans hbase hble
  have hb : F64.ofInt base = F64.fin (base : ℚ) :=
    ofInt_small base (by rw [abs_of_nonneg hbase]; omega)
  have hmx : F64.ofInt maxDelay = F64.fin (maxDelay : ℚ) :=
    ofInt_small maxDelay (by rw [abs_of_nonneg hmax.le]; omega)
  rw [hmain, hb, hmx, hk, floatPow_intCast k hk1 retries.toNat base hbase hlt]
  unfold clamp
  rw [lt_fin_fin]
  by_cases hc : maxDelay < base * (k : Int) ^ retries.toNat
  · have hc2 : ((maxDelay : Int) : ℚ) < ((base * (k : Int) ^ retries.toNat : Int) : ℚ) := by
      exact_mod_cast hc
    rw [decide_eq_true hc2, if_pos rfl, min_eq_right hc.le,
      toDuration_fin_of_range (by exact_mod_cast hmax.le)
        (by
          have : ((maxDelay : Int) : ℚ) < ((9007199254740992 : Int) : ℚ) := by
            exact_mod_cast hmaxlt
          push_cast at this
          linarith)]
    exact floor_intCast_rat maxDelay
  · have hc2 : ¬ ((maxDelay : Int) : ℚ) < ((base * (k : Int) ^ retries.toNat : Int) : ℚ) := by
      exact_mod_cast hc
    rw [decide_eq_false hc2, if_neg (by simp), min_eq_left (not_lt.mp hc),
      toDuration_fin_of_range (by exact_mod_cast hP0)
        (by
          have : ((base * (k : Int) ^ retries.toNat : Int) : ℚ) <
              ((9007199254740992 : Int) : ℚ) := by
            exact_mod_cast hlt
          push_cast at this ⊢
          linarith)]
    exact floor_intCast_rat _

/-- Witness of C3 at base delay 1s, multiplier 2, maximum 120s and attempt
3: the delay is 8s for the draw `1/2`. -/
theorem C3_zero_jitter_delay_witness :
    Exponential.Backoff ⟨⟨1000000000, F64.fin 2, F64.fin 0, 120000000000⟩⟩ (F64.fin (1 / 2)) 3 =
      min (1000000000 * ((2 : Nat) : Int) ^ (3 : Int).toNat) 120000000000 :=
  (C3_zero_jitter_delay 1000000000 120000000000 2 (1 / 2) 3 (by decide) (by norm_num)
    (by decide) (by decide) (by norm_num) (by norm_num) (Or.inl (by norm_num))).2 2
    (by norm_num) (by decide) (by decide)

/-! ## Delays that break the claims: overflow and the unclamped attempt 0 -/

/-- C4 fails on the code: with `BaseDelay = 1s`, `Multiplier = 2`,
`Jitter = 0` and `MaxDelay` the largest `int64`, attempt 100 has the
envelope clamped to `float64(MaxDelay) = 2^63`, which passes the guard
`backoff < 0` and does not fit in an `int64`: the conversion gives the least
`int64`, a negative duration. -/
theorem C4_overflow_gives_negative_delay :
    Exponential.Backoff ⟨⟨1000000000, F64.fin 2, F64.fin 0, 9223372036854775807⟩⟩
      (F64.fin 0) 100 = -9223372036854775808 := by
  have hb : F64.ofInt 1000000000 = F64.fin (1000000000 * 2 ^ 0) := by
    have := ofInt_small 1000000000 (by norm_num)
    simpa using this
  have hloop := envelopeLoop_doubling 34 0 66 (by norm_num)
  have hclamp : clamp (F64.fin (1000000000 * 2 ^ 34)) (F64.fin 9223372036854775808) =
      F64.fin 9223372036854775808 := by
    have hlt : F64.lt (F64.fin 9223372036854775808) (F64.fin (1000000000 * 2 ^ 34)) = true := by
      simp only [F64.lt, decide_eq_true_eq]
      norm_num
    unfold clamp
    rw [hlt, if_pos rfl]
  have hone : F64.mul (F64.fin 9223372036854775808) (F64.fin 1) =
      F64.fin 9223372036854775808 := by
    rw [mul_fin_one]
    exact round64_fin_idem ofInt_maxInt64
  have hguard : F64.lt (F64.fin 9223372036854775808) (F64.fin 0) = false := by
    simp only [F64.lt, decide_eq_false_iff_not, not_lt]
    norm_num
  rw [Exponential.Backoff_zero_jitter _ _ _ 0 100 (le_refl 0) (by norm_num) (by norm_num),
    ofInt_maxInt64, hb]
  have h100 : (100 : Int).toNat = 66 + 34 := by decide
  rw [h100, hloop, hclamp, hone, hguard]
  simpa using toDuration_two_pow_63


/-- C5 fails on the code: with `BaseDelay = 10s`, `Multiplier = 2`,
`Jitter = 0` and `MaxDelay = 5s`, attempt 0 returns the base delay `10s`
without the clamp and attempt 1 returns the clamped `5s`, so the delay
decreases from attempt 0 to attempt 1. -/
theorem C5_attempt_one_below_attempt_zero :
    (v2.Backoff.Backoff ⟨10000000000, F64.fin 2, F64.fin 0, 5000000000⟩ (F64.fin 0) 0).1 =
      10000000000 ∧
    (v2.Backoff.Backoff ⟨10000000000, F64.fin 2, F64.fin 0, 5000000000⟩ (F64.fin 0) (0 + 1)).1 =
      5000000000 := by
  have hfill : v2.Backoff.fill ⟨10000000000, F64.fin 2, F64.fin 0, 5000000000⟩ =
      ⟨10000000000, F64.fin 2, F64.fin 0, 5000000000⟩ := by
    have hlt : F64.lt (F64.fin 2) (F64.fin 1) = false := by
      rw [lt_fin_fin]
      norm_num
    simp [v2.Backoff.fill, hlt]
  have hb : F64.ofInt 10000000000 = F64.fin 10000000000 := by
    simpa using ofInt_small 10000000000 (by norm_num)
  have hm : F64.ofInt 5000000000 = F64.fin 5000000000 := by
    simpa using ofInt_small 5000000000 (by norm_num)
  have hm2 : round64 5000000000 = F64.fin 5000000000 := by
    simpa using round64_intCast 5000000000 (by norm_num)
  constructor
  · simp [v2.Backoff.Backoff, hfill]
  · have hloop : (envelopeLoop (F64.fin 2) (F64.fin 5000000000) 1 (F64.fin 10000000000)).1 =
        F64.fin 10000000000 := by
      rw [envelopeLoop, lt_fin_fin]
      norm_num
    have hclamp : clamp (F64.fin 10000000000) (F64.fin 5000000000) = F64.fin 5000000000 := by
      unfold clamp
      rw [lt_fin_fin]
      norm_num
    simp only [v2.Backoff.Backoff, hfill, zero_add, one_ne_zero, if_false, jittered,
      jitter_factor_zero (le_refl (0 : ℚ)) (by norm_num : (0 : ℚ) < 1), hb, hm, Int.toNat_one,
      hloop, hclamp, mul_fin_one, hm2]
    rw [delay_of_range (by norm_num) (by norm_num)]
    exact_mod_cast floor_intCast_rat 5000000000


/-! ## The first retry: claims -/

/-- C6, as stated, fails when the envelope is clamped: with
`BaseDelay = 10s`, `Multiplier = 2`, `Jitter = 1/4`, `MaxDelay = 5s` and the
draw `1/2`, attempt 1 returns `5s`, more than a nanosecond below
`BaseDelay * Multiplier * (1 - Jitter) = 15s`. -/
theorem C6_counterexample :
    Exponential.Backoff ⟨⟨10000000000, F64.fin 2, F64.fin (1 / 4), 5000000000⟩⟩
      (F64.fin (1 / 2)) 1 = 5000000000 ∧
    ¬ (((10000000000 : Int) : ℚ) * 2 * (1 - 1 / 4) - 1 < ((5000000000 : Int) : ℚ)) := by
  refine ⟨?_, by norm_num⟩
  have hb : F64.ofInt 10000000000 = F64.fin 10000000000 := by
    simpa using ofInt_small 10000000000 (by norm_num)
  have hm : F64.ofInt 5000000000 = F64.fin 5000000000 := by
    simpa using ofInt_small 5000000000 (by norm_num)
  have hm2 : round64 5000000000 = F64.fin 5000000000 := by
    simpa using round64_intCast 5000000000 (by norm_num)
  have hloop : (envelopeLoop (F64.fin 2) (F64.fin 5000000000) 1 (F64.fin 10000000000)).1 =
      F64.fin 10000000000 := by
    rw [envelopeLoop, lt_fin_fin]
    norm_num
  have hclamp : clamp (F64.fin 10000000000) (F64.fin 5000000000) = F64.fin 5000000000 := by
    unfold clamp
    rw [lt_fin_fin]
    norm_num
  simp only [Exponential.Backoff, one_ne_zero, if_false, jittered, hb, hm, Int.toNat_one, hloop,
    hclamp]
  rw [mul_fin_fin (1 / 2) 2, show (1 / 2 : ℚ) * 2 = 1 by norm_num, round64_one, sub_fin_fin,
    show (1 : ℚ) + -1 = 0 by norm_num, round64_zero, mul_fin_fin (1 / 4) 0, mul_zero,
    round64_zero, add_fin_fin, add_zero, round64_one, mul_fin_one, hm2,
    delay_of_range (by norm_num) (by norm_num)]
  exact_mod_cast floor_intCast_rat 5000000000

/-- C6 (amended): for `Exponential.Backoff` with `BaseDelay ≥ 0`,
`Multiplier > 0`, a `Jitter` in `[0, 1]`, `MaxDelay > 0` and a draw in
`[0, 1)`, let `E = float64(BaseDelay) * Multiplier`.  Provided the envelope
of attempt 1 is not clamped (`float64(BaseDelay) < float64(MaxDelay)` and
`E` does not exceed `float64(MaxDelay)`) the delay of attempt 1 lies between
`E * (1 - Jitter)` and `E * (1 + Jitter)`, both computed in `float64`
arithmetic, up to truncation to whole nanoseconds, when the upper bound is
below `2^63`.  For the default configuration and every draw,
`DefaultExponential.Backoff(1)` is between 1000ms and 2000ms and
`DefaultExponential.Backoff(2)` between 100ms and 3500ms. -/
theorem C6_first_retry_bounds (base maxDelay : Int) (m j r E Lo Hi : ℚ)
    (hbase : 0 ≤ base) (hm : 0 < m) (hj0 : 0 ≤ j) (hj1 : j ≤ 1)
    (hjf : round64 j = F64.fin j) (_hmax : 0 < maxDelay) (hr0 : 0 ≤ r) (hr1 : r < 1)
    (hlt : F64.lt (F64.ofInt base) (F64.ofInt maxDelay) = true)
    (hE : F64.mul (F64.ofInt base) (F64.fin m) = F64.fin E)
    (hfit : F64.lt (F64.ofInt maxDelay) (F64.fin E) = false)
    (hLo : F64.mul (F64.fin E) (F64.add (F64.fin 1) (F64.fin (-j))) = F64.fin Lo)
    (hHi : F64.mul (F64.fin E) (F64.add (F64.fin 1) (F64.fin j)) = F64.fin Hi)
    (hHi2 : Hi < 9223372036854775808) :
    (Lo - 1 <
        ((Exponential.Backoff ⟨⟨base, F64.fin m, F64.fin j, maxDelay⟩⟩ (F64.fin r) 1 : Int) : ℚ) ∧
      ((Exponential.Backoff ⟨⟨base, F64.fin m, F64.fin j, maxDelay⟩⟩ (F64.fin r) 1 : Int) : ℚ) ≤
        Hi) ∧
    (1000 * Millisecond ≤ DefaultExponential.Backoff (F64.fin r) 1 ∧
      DefaultExponential.Backoff (F64.fin r) 1 ≤ 2000 * Millisecond) ∧
    (100 * Millisecond ≤ DefaultExponential.Backoff (F64.fin r) 2 ∧
      DefaultExponential.Backoff (F64.fin r) 2 ≤ 3500 * Millisecond) := by
  refine ⟨?_, ?_⟩
  · -- the general bound
    obtain ⟨B, _, hB, _⟩ := mul_eq_fin hE
    have hE0 : 0 ≤ E := by
      have hB0 : 0 ≤ B := by
        rcases round64_nonneg (show (0 : ℚ) ≤ (base : ℚ) by exact_mod_cast hbase) with
          h | ⟨x, h, hx⟩
        · unfold F64.ofInt at hB
          rw [h] at hB
          exact absurd hB (by simp)
        · unfold F64.ofInt at hB
          rw [h] at hB
          injection hB with hB
          rw [← hB]
          exact hx
      rw [hB, mul_fin_fin] at hE
      rcases round64_nonneg (mul_nonneg hB0 hm.le) with h | ⟨x, h, hx⟩
      · rw [h] at hE
        exact absurd hE (by simp)
      · rw [h] at hE
        injection hE with hE
        rw [← hE]
        exact hx
    obtain ⟨_, flo, _, hflo⟩ := mul_eq_fin hLo
    obtain ⟨_, fhi, _, hfhi⟩ := mul_eq_fin hHi
    rw [hflo, mul_fin_fin] at hLo
    rw [hfhi, mul_fin_fin] at hHi
    rw [add_fin_fin] at hflo hfhi
    obtain ⟨f, hf, hf0, hhi, hlo⟩ := jitter_factor_bounds hj0 hj1 hjf hr0 hr1
    have h1 : flo ≤ f := hlo flo hflo
    have h2 : f ≤ fhi := hhi fhi hfhi
    obtain ⟨x, hx, hxLo, hxHi⟩ := round64_between
      (mul_le_mul_of_nonneg_left h1 hE0) (mul_le_mul_of_nonneg_left h2 hE0) hLo hHi
    have hx0 : 0 ≤ x := by
      rcases round64_nonneg (mul_nonneg hE0 hf0) with h | ⟨y, h, hy⟩
      · rw [h] at hx
        exact absurd hx (by simp)
      · rw [h] at hx
        injection hx with hx
        rw [← hx]
        exact hy
    have hloop : (envelopeLoop (F64.fin m) (F64.ofInt maxDelay) 1 (F64.ofInt base)).1 =
        F64.fin E := by
      rw [envelopeLoop, hlt, if_pos rfl, hE]
      rfl
    have hclamp : clamp (F64.fin E) (F64.ofInt maxDelay) = F64.fin E := by
      unfold clamp
      rw [hfit]
      rfl
    have hval : jittered base (F64.fin m) (F64.fin j) maxDelay (F64.fin r) 1 = F64.fin x := by
      simp only [jittered, Int.toNat_one, hloop, hclamp, hf]
      rw [mul_fin_fin]
      exact hx
    simp only [Exponential.Backoff, one_ne_zero, if_false, hval]
    rw [delay_of_range hx0 (lt_of_le_of_lt hxHi hHi2)]
    constructor
    · have := Int.sub_one_lt_floor x
      linarith
    · exact le_trans (Int.floor_le x) hxHi
  · -- the default configuration
    have hdef : DefaultExponential =
        ⟨⟨1000000000, F64.fin (3602879701896397 / 2251799813685248), F64.lit (1 / 5),
          120000000000⟩⟩ := by
      simp [DefaultExponential, DefaultConfig, Second, lit_eight_fifths]
    obtain ⟨f, hf, hf1, hf2⟩ := default_jitter_factor hr0 hr1
    have hb : F64.ofInt 1000000000 = F64.fin 1000000000 := by
      simpa using ofInt_small 1000000000 (by norm_num)
    have hmx : F64.ofInt 120000000000 = F64.fin 120000000000 := by
      simpa using ofInt_small 120000000000 (by norm_num)
    obtain ⟨E1, hE1, hE1a, hE1b⟩ := round64_between
      (show ((1600000000 : Int) : ℚ) ≤
        1000000000 * (3602879701896397 / 2251799813685248) by norm_num)
      (show (1000000000 : ℚ) * (3602879701896397 / 2251799813685248) ≤
        ((1600000001 : Int) : ℚ) by norm_num)
      (round64_intCast 1600000000 (by norm_num)) (round64_intCast 1600000001 (by norm_num))
    push_cast at hE1a hE1b
    obtain ⟨E2, hE2, hE2a, hE2b⟩ := round64_between
      (show ((2560000000 : Int) : ℚ) ≤ E1 * (3602879701896397 / 2251799813685248) by
        push_cast; nlinarith)
      (show E1 * (3602879701896397 / 2251799813685248) ≤ ((2560000002 : Int) : ℚ) by
        push_cast; nlinarith)
      (round64_intCast 2560000000 (by norm_num)) (round64_intCast 2560000002 (by norm_num))
    push_cast at hE2a hE2b
    have hlt0 : F64.lt (F64.fin 1000000000) (F64.fin 120000000000) = true := by
      rw [lt_fin_fin]
      norm_num
    have hlt1 : F64.lt (F64.fin E1) (F64.fin 120000000000) = true := by
      rw [lt_fin_fin, decide_eq_true_eq]
      linarith
    have hloop1 : (envelopeLoop (F64.fin (3602879701896397 / 2251799813685248))
        (F64.fin 120000000000) 1 (F64.fin 1000000000)).1 = F64.fin E1 := by
      rw [envelopeLoop, hlt0, if_pos rfl, mul_fin_fin, hE1]
      rfl
    have hloop2 : (envelopeLoop (F64.fin (3602879701896397 / 2251799813685248))
        (F64.fin 120000000000) 2 (F64.fin 1000000000)).1 = F64.fin E2 := by
      rw [envelopeLoop, hlt0, if_pos rfl, mul_fin_fin, hE1, envelopeLoop, hlt1, if_pos rfl,
        mul_fin_fin, hE2]
      rfl
    have hclamp1 : clamp (F64.fin E1) (F64.fin 120000000000) = F64.fin E1 := by
      unfold clamp
      rw [lt_fin_fin, if_neg]
      rw [decide_eq_true_eq]
      linarith
    have hclamp2 : clamp (F64.fin E2) (F64.fin 120000000000) = F64.fin E2 := by
      unfold clamp
      rw [lt_fin_fin, if_neg]
      rw [decide_eq_true_eq]
      linarith
    obtain ⟨x1, hx1, hx1a, hx1b⟩ := delay_between_ints (E1 * f) 1000000000 2000000000
      (by norm_num) (by norm_num) (by norm_num) (by push_cast; nlinarith)
      (by push_cast; nlinarith)
    obtain ⟨x2, hx2, hx2a, hx2b⟩ := delay_between_ints (E2 * f) 100000000 3500000000
      (by norm_num) (by norm_num) (by norm_num) (by push_cast; nlinarith)
      (by push_cast; nlinarith)
    have h2nat : (2 : Int).toNat = 2 := by decide
    constructor
    · simp only [hdef, Exponential.Backoff, one_ne_zero, if_false, jittered, hb, hmx,
        Int.toNat_one, hloop1, hclamp1, hf, Millisecond]
      rw [mul_fin_fin, hx1]
      exact ⟨by simpa using hx1a, by simpa using hx1b⟩
    · simp only [hdef, Exponential.Backoff, show (2 : Int) ≠ 0 by decide, if_false, jittered, hb,
        hmx, h2nat, hloop2, hclamp2, hf, Millisecond]
      rw [mul_fin_fin, hx2]
      exact ⟨by simpa using hx2a, by simpa using hx2b⟩



/-- Witness of C6 at base delay 1s, multiplier 2, jitter 1/4, maximum 120s
and the draw `1/4`: the delay of attempt 1 is between 1.5s and 2.5s. -/
theorem C6_first_retry_bounds_witness :
    ((1500000000 : ℚ) - 1 <
        ((Exponential.Backoff ⟨⟨1000000000, F64.fin 2, F64.fin (1 / 4), 120000000000⟩⟩
          (F64.fin (1 / 4)) 1 : Int) : ℚ) ∧
      ((Exponential.Backoff ⟨⟨1000000000, F64.fin 2, F64.fin (1 / 4), 120000000000⟩⟩
          (F64.fin (1 / 4)) 1 : Int) : ℚ) ≤ 2500000000) ∧
    (1000 * Millisecond ≤ DefaultExponential.Backoff (F64.fin (1 / 4)) 1 ∧
      DefaultExponential.Backoff (F64.fin (1 / 4)) 1 ≤ 2000 * Millisecond) ∧
    (100 * Millisecond ≤ DefaultExponential.Backoff (F64.fin (1 / 4)) 2 ∧
      DefaultExponential.Backoff (F64.fin (1 / 4)) 2 ≤ 3500 * Millisecond) := by
  have hb : F64.ofInt 1000000000 = F64.fin 1000000000 := by
    simpa using ofInt_small 1000000000 (by norm_num)
  have hmx : F64.ofInt 120000000000 = F64.fin 120000000000 := by
    simpa using ofInt_small 120000000000 (by norm_num)
  have hE : round64 ((1000000000 : ℚ) * 2) = F64.fin 2000000000 := by
    rw [show (1000000000 : ℚ) * 2 = 2000000000 by norm_num]
    simpa using round64_intCast 2000000000 (by norm_num)
  have h34 : round64 ((1 : ℚ) + -(1 / 4)) = F64.fin (3 / 4) := by
    rw [show (1 : ℚ) + -(1 / 4) = 3 / 4 by norm_num]
    exact round64_of_grid _ 3 (-2) (by norm_num) (by norm_num) (by norm_num) (by norm_num)
      (by norm_num)
  have h54 : round64 ((1 : ℚ) + 1 / 4) = F64.fin (5 / 4) := by
    rw [show (1 : ℚ) + 1 / 4 = 5 / 4 by norm_num]
    exact round64_of_grid _ 5 (-2) (by norm_num) (by norm_num) (by norm_num) (by norm_num)
      (by norm_num)
  have hLo : round64 ((2000000000 : ℚ) * (3 / 4)) = F64.fin 1500000000 := by
    rw [show (2000000000 : ℚ) * (3 / 4) = 1500000000 by norm_num]
    simpa using round64_intCast 1500000000 (by norm_num)
  have hHi : round64 ((2000000000 : ℚ) * (5 / 4)) = F64.fin 2500000000 := by
    rw [show (2000000000 : ℚ) * (5 / 4) = 2500000000 by norm_num]
    simpa using round64_intCast 2500000000 (by norm_num)
  exact C6_first_retry_bounds 1000000000 120000000000 2 (1 / 4) (1 / 4) 2000000000 1500000000
    2500000000 (by decide) (by norm_num) (by norm_num) (by norm_num)
    (round64_of_grid _ 1 (-2) (by norm_num) (by norm_num) (by norm_num) (by norm_num)
      (by norm_num))
    (by decide) (by norm_num) (by norm_num)
    (by rw [hb, hmx, lt_fin_fin]; norm_num)
    (by rw [hb, mul_fin_fin, hE])
    (by rw [hmx, lt_fin_fin]; norm_num)
    (by rw [add_fin_fin, h34, mul_fin_fin, hLo])
    (by rw [add_fin_fin, h54, mul_fin_fin, hHi])
    (by norm_num)

/-! ## The envelope loop: claims -/

/-- C17, as stated, fails on the code, because the loop compares and
multiplies `float64` values: with `BaseDelay = 36028797018963971`,
`Multiplier = 7/4`, `MaxDelay = 63050394783186949` and `retries = 2` the
exact product `BaseDelay * Multiplier ^ 1` is at least `MaxDelay`, so the
least `k` of the claim is at most 1, while the loop multiplies twice: the
conversions give `float64(BaseDelay) = 36028797018963968` and
`float64(MaxDelay) = 63050394783186952`, and the first product
`63050394783186944` is still below the maximum. -/
theorem C17_counterexample :
    ((63050394783186949 : Int) : ℚ) ≤ ((36028797018963971 : Int) : ℚ) * (7 / 4) ^ 1 ∧
    multiplications (F64.fin (7 / 4)) (F64.ofInt 63050394783186949) (2 : Int).toNat
      (F64.ofInt 36028797018963971) = 2 ∧
    ¬ (multiplications (F64.fin (7 / 4)) (F64.ofInt 63050394783186949) (2 : Int).toNat
      (F64.ofInt 36028797018963971) ≤ min (2 : Int).toNat 1) := by
  have hb : F64.ofInt 36028797018963971 = F64.fin 36028797018963968 := by
    unfold F64.ofInt
    apply round64_eval _ 55 4503599627370496
    · norm_num [abs_of_pos]
    · norm_num [abs_of_pos]
    · norm_num
    · norm_num [abs_lt]
    · norm_num
    · norm_num
    · norm_num
  have hm : F64.ofInt 63050394783186949 = F64.fin 63050394783186952 := by
    unfold F64.ofInt
    apply round64_eval _ 55 7881299347898369
    · norm_num [abs_of_pos]
    · norm_num [abs_of_pos]
    · norm_num
    · norm_num [abs_lt]
    · norm_num
    · norm_num
    · norm_num
  have hp1 : F64.mul (F64.fin 36028797018963968) (F64.fin (7 / 4)) =
      F64.fin 63050394783186944 := by
    rw [mul_fin_fin, show (36028797018963968 : ℚ) * (7 / 4) = 63050394783186944 by norm_num]
    exact round64_of_grid _ 7 53 (by norm_num) (by norm_num) (by norm_num) (by norm_num)
      (by norm_num)
  have hl0 : F64.lt (F64.fin 36028797018963968) (F64.fin 63050394783186952) = true := by
    rw [lt_fin_fin]
    norm_num
  have hl1 : F64.lt (F64.fin 63050394783186944) (F64.fin 63050394783186952) = true := by
    rw [lt_fin_fin]
    norm_num
  have h2 : (2 : Int).toNat = 1 + 1 := by decide
  have hcount : multiplications (F64.fin (7 / 4)) (F64.ofInt 63050394783186949) (2 : Int).toNat
      (F64.ofInt 36028797018963971) = 2 := by
    rw [hb, hm, h2, multiplications_succ_of_lt _ _ _ _ hl0, hp1,
      multiplications_succ_of_lt _ _ _ _ hl1]
    simp [multiplications, envelopeLoop]
  refine ⟨by norm_num, hcount, ?_⟩
  rw [hcount]
  decide

/-- C17 (amended): with `BaseDelay > 0`, a `float64` `Multiplier > 1`,
`MaxDelay > 0` and `retries ≥ 1` the envelope loop, which both packages run
on these very values, multiplies at most `min retries k` times for every
`k` at which the running `float64` product (`float64(BaseDelay)` multiplied
`k` times by `Multiplier`, each product rounded) is not below
`float64(MaxDelay)`, and exactly `min retries k` times for the least such
`k`; such a `k` exists and bounds the number of multiplications for every
`retries`.  The defaulting of `v2` leaves such a configuration as it is. -/
theorem C17_envelope_loop_stops_at_saturation (base maxDelay : Int) (m : ℚ) (jitter : F64)
    (retries : Int) (hbase : 0 < base) (hmult : 1 < m) (hmf : round64 m = F64.fin m)
    (hmax : 0 < maxDelay) (_hret : 1 ≤ retries) :
    (∀ k : Nat, F64.lt (floatPow (F64.ofInt base) (F64.fin m) k) (F64.ofInt maxDelay) = false →
      multiplications (F64.fin m) (F64.ofInt maxDelay) retries.toNat (F64.ofInt base) ≤
        min retries.toNat k) ∧
    (∀ k : Nat, F64.lt (floatPow (F64.ofInt base) (F64.fin m) k) (F64.ofInt maxDelay) = false →
      (∀ j, j < k →
        F64.lt (floatPow (F64.ofInt base) (F64.fin m) j) (F64.ofInt maxDelay) = true) →
      multiplications (F64.fin m) (F64.ofInt maxDelay) retries.toNat (F64.ofInt base) =
        min retries.toNat k) ∧
    (∃ k : Nat, F64.lt (floatPow (F64.ofInt base) (F64.fin m) k) (F64.ofInt maxDelay) = false ∧
      ∀ r : Int, multiplications (F64.fin m) (F64.ofInt maxDelay) r.toNat (F64.ofInt base) ≤ k) ∧
    v2.Backoff.fill ⟨base, F64.fin m, jitter, maxDelay⟩ = ⟨base, F64.fin m, jitter, maxDelay⟩ := by
  refine ⟨?_, ?_, ?_, ?_⟩
  · intro k hk
    exact le_min (Nat.sub_le _ _) (multiplications_le_of_reached _ _ _ _ k hk)
  · intro k hk hlt
    exact multiplications_eq_min _ _ _ _ k hk hlt
  · obtain ⟨k, hk⟩ := floatPow_overflow hmult hmf (atLeast_ofInt hbase)
    have hk2 : F64.lt (floatPow (F64.ofInt base) (F64.fin m) k) (F64.ofInt maxDelay) = false := by
      rw [hk]
      exact lt_pinf_left _
    exact ⟨k, hk2, fun r => multiplications_le_of_reached _ _ _ _ k hk2⟩
  · have h1 : base ≠ 0 := ne_of_gt hbase
    have h2 : maxDelay ≠ 0 := ne_of_gt hmax
    have h3 : F64.lt (F64.fin m) (F64.fin 1) = false := by
      rw [lt_fin_fin]
      simpa using hmult.le
    simp [v2.Backoff.fill, h1, h2, h3]

/-- Witness of C17: from one second with multiplier 2 under a maximum of
five seconds the running product reaches the maximum at the third
multiplication, so ten retries cost three multiplications. -/
theorem C17_envelope_loop_stops_at_saturation_witness :
    multiplications (F64.fin 2) (F64.ofInt 5000000000) (10 : Int).toNat
      (F64.ofInt 1000000000) = min (10 : Int).toNat 3 := by
  have hb : F64.ofInt 1000000000 = F64.fin ((1000000000 : Int) : ℚ) :=
    ofInt_small 1000000000 (by norm_num)
  have hmx : F64.ofInt 5000000000 = F64.fin 5000000000 := by
    simpa using ofInt_small 5000000000 (by norm_num)
  have hpow : ∀ j : Nat, j ≤ 3 → floatPow (F64.ofInt 1000000000) (F64.fin 2) j =
      F64.fin ((1000000000 * ((2 : Nat) : Int) ^ j : Int) : ℚ) := by
    intro j hj
    rw [hb]
    have := floatPow_intCast 2 (by norm_num) j 1000000000 (by norm_num)
      (by interval_cases j <;> norm_num)
    simpa using this
  exact (C17_envelope_loop_stops_at_saturation 1000000000 5000000000 2 (F64.fin 0) 10
    (by decide) (by norm_num) round64_two (by decide) (by decide)).2.1 3
    (by rw [hpow 3 (le_refl 3), hmx, lt_fin_fin]; norm_num)
    (by
      intro j hj
      rw [hpow j (by omega), hmx, lt_fin_fin]
      interval_cases j <;> norm_num)

/-! ## The retry driver `Invoke` -/

namespace v2

/-- One iteration of the loop in which the call fails with an error that is
not the certificate error, the retryer approves and the sleep is not
interrupted: the loop goes on with `n + 1`. -/
theorem Invoke.loop_step {ε : Type} (msg : ε → String) (call : Nat → Option ε)
    (sleep : Nat → Int → Option ε) (r : Nat → ε → Int × Bool) (fuel n : Nat) (log : Log ε)
    (e : ε) (hcall : call n = some e) (hcert : stringsContains (msg e) certMessage = false)
    (hok : (r n e).2 = true) (hsleep : sleep n (r n e).1 = none) :
    Invoke.loop msg call sleep (some r) (fuel + 1) n log =
      Invoke.loop msg call sleep (some r) fuel (n + 1)
        { calls := log.calls + 1, asked := log.asked ++ [(n, e)],
          slept := log.slept ++ [(r n e).1] } := by
  simp [Invoke.loop, hcall, hcert, hok, hsleep]

/-- After `k` approved attempts the loop stands at `n = k` with `k` calls
made, the retryer asked about each of them and `k` sleeps done. -/
theorem Invoke.approved_run {ε : Type} (msg : ε → String) (call : Nat → Option ε)
    (sleep : Nat → Int → Option ε) (r : Nat → ε → Int × Bool) (errs : Nat → ε) (k : Nat)
    (hcall : ∀ i, i < k → call i = some (errs i))
    (hcert : ∀ i, i < k → stringsContains (msg (errs i)) certMessage = false)
    (hok : ∀ i, i < k → (r i (errs i)).2 = true)
    (hsleep : ∀ i, i < k → sleep i (r i (errs i)).1 = none) (fuel : Nat) :
    Invoke msg call sleep (some r) (fuel + k) =
      Invoke.loop msg call sleep (some r) fuel k
        { calls := k, asked := (List.range k).map (fun i => (i, errs i)),
          slept := (List.range k).map (fun i => (r i (errs i)).1) } := by
  induction k generalizing fuel with
  | zero => simp [Invoke]
  | succ k ih =>
    have hk := ih (fun i hi => hcall i (Nat.lt_succ_of_lt hi))
      (fun i hi => hcert i (Nat.lt_succ_of_lt hi))
      (fun i hi => hok i (Nat.lt_succ_of_lt hi))
      (fun i hi => hsleep i (Nat.lt_succ_of_lt hi)) (fuel + 1)
    have hfuel : fuel + (k + 1) = fuel + 1 + k := by omega
    rw [hfuel, hk, Invoke.loop_step msg call sleep r fuel k _ (errs k) (hcall k (Nat.lt_succ_self k))
      (hcert k (Nat.lt_succ_self k)) (hok k (Nat.lt_succ_self k))
      (hsleep k (Nat.lt_succ_self k))]
    simp [List.range_succ]

end v2

/-- C7: if the operation fails on its first `k` calls with errors that do
not contain the certificate substring and returns nil on call `k + 1`, the
retryer approves attempts `0..k-1` and every sleep completes, then `Invoke`
(given at least `k + 1` units of fuel) returns nil after exactly `k + 1`
calls of the operation, `k` calls of the retryer and `k` sleeps. -/
theorem C7_invoke_succeeds_after_transient_failures {ε : Type} (msg : ε → String)
    (call : Nat → Option ε) (sleep : Nat → Int → Option ε) (r : Nat → ε → Int × Bool)
    (errs : Nat → ε) (k : Nat)
    (hcall : ∀ i, i < k → call i = some (errs i))
    (hcert : ∀ i, i < k → v2.stringsContains (msg (errs i)) v2.certMessage = false)
    (hnil : call k = none)
    (hok : ∀ i, i < k → (r i (errs i)).2 = true)
    (hsleep : ∀ i, i < k → sleep i (r i (errs i)).1 = none)
    (fuel : Nat) (hfuel : k + 1 ≤ fuel) :
    v2.Invoke msg call sleep (some r) fuel =
      some (none, { calls := k + 1, asked := (List.range k).map (fun i => (i, errs i)),
                    slept := (List.range k).map (fun i => (r i (errs i)).1) }) := by
  obtain ⟨f, rfl⟩ : ∃ f, fuel = f + 1 + k := ⟨fuel - (k + 1), by omega⟩
  rw [v2.Invoke.approved_run msg call sleep r errs k hcall hcert hok hsleep (f + 1)]
  simp [v2.Invoke.loop, hnil]

/-- Witness of C7 on the run of `TestBackoff`: three calls fail with
"should retry", the fourth returns nil, the retryer allows attempts below 3
and no sleep is interrupted. -/
theorem C7_invoke_succeeds_after_transient_failures_witness :
    v2.Invoke (fun e : String => e)
      (fun i => if i < 3 then some "should retry" else none) (fun _ _ => none)
      (some (fun n err => if 3 ≤ n ∨ err ≠ "should retry" then (0, false) else (1000, true))) 10 =
      some (none, { calls := 3 + 1,
                    asked := (List.range 3).map (fun i => (i, (fun _ => "should retry") i)),
                    slept := (List.range 3).map (fun i =>
                      ((fun (n : Nat) (err : String) =>
                        if 3 ≤ n ∨ err ≠ "should retry" then ((0 : Int), false)
                        else (1000, true)) i ((fun _ => "should retry") i)).1) }) :=
  C7_invoke_succeeds_after_transient_failures (fun e : String => e)
    (fun i => if i < 3 then some "should retry" else none) (fun _ _ => none)
    (fun n err => if 3 ≤ n ∨ err ≠ "should retry" then (0, false) else (1000, true))
    (fun _ => "should retry") 3
    (by intro i hi; simp [hi])
    (by intro i _; show v2.stringsContains "should retry" v2.certMessage = false; decide)
    (by simp)
    (by intro i hi; simp [Nat.not_le.mpr hi]) (by intro i _; rfl) 10 (by decide)

/-- C8: if the operation fails on calls `1..k+1`, the retryer approves
attempts `0..k-1` (errors without the certificate substring, sleeps not
interrupted) and answers `shouldRetry = false` for attempt `k` with the
error `e` of call `k + 1`, then `Invoke` (given at least `k + 1` units of
fuel) returns exactly `e`, the operation has been called exactly `k + 1`
times, and the only sleeps are the `k` that followed the approvals. -/
theorem C8_invoke_gives_up_on_denial {ε : Type} (msg : ε → String)
    (call : Nat → Option ε) (sleep : Nat → Int → Option ε) (r : Nat → ε → Int × Bool)
    (errs : Nat → ε) (k : Nat)
    (hcall : ∀ i, i < k + 1 → call i = some (errs i))
    (hcert : ∀ i, i < k → v2.stringsContains (msg (errs i)) v2.certMessage = false)
    (hok : ∀ i, i < k → (r i (errs i)).2 = true)
    (hsleep : ∀ i, i < k → sleep i (r i (errs i)).1 = none)
    (hdeny : (r k (errs k)).2 = false)
    (fuel : Nat) (hfuel : k + 1 ≤ fuel) :
    ∃ log : v2.Log ε, v2.Invoke msg call sleep (some r) fuel = some (some (errs k), log) ∧
      log.calls = k + 1 ∧ log.slept = (List.range k).map (fun i => (r i (errs i)).1) := by
  obtain ⟨f, rfl⟩ : ∃ f, fuel = f + 1 + k := ⟨fuel - (k + 1), by omega⟩
  rw [v2.Invoke.approved_run msg call sleep r errs k
    (fun i hi => hcall i (Nat.lt_succ_of_lt hi)) hcert hok hsleep (f + 1)]
  by_cases hc : v2.stringsContains (msg (errs k)) v2.certMessage = true
  · refine ⟨{ calls := k + 1, asked := (List.range k).map (fun i => (i, errs i)),
              slept := (List.range k).map (fun i => (r i (errs i)).1) }, ?_, rfl, rfl⟩
    simp [v2.Invoke.loop, hcall k (Nat.lt_succ_self k), hc]
  · refine ⟨{ calls := k + 1, asked := (List.range k).map (fun i => (i, errs i)) ++ [(k, errs k)],
              slept := (List.range k).map (fun i => (r i (errs i)).1) }, ?_, rfl, rfl⟩
    simp [v2.Invoke.loop, hcall k (Nat.lt_succ_self k), hc, hdeny]

/-- Witness of C8 on the run of `TestBackoffFail`: two calls fail with
"should retry", the third with "should fail", for which the retryer denies
the retry. -/
theorem C8_invoke_gives_up_on_denial_witness :
    ∃ log : v2.Log String,
      v2.Invoke (fun e : String => e)
        (fun i => if i < 2 then some "should retry" else some "should fail") (fun _ _ => none)
        (some (fun n err => if 3 ≤ n ∨ err ≠ "should retry" then (0, false) else (1000, true)))
        10 = some (some ((fun i => if i < 2 then "should retry" else "should fail") 2), log) ∧
      log.calls = 2 + 1 ∧
      log.slept = (List.range 2).map (fun i =>
        ((fun (n : Nat) (err : String) =>
          if 3 ≤ n ∨ err ≠ "should retry" then ((0 : Int), false) else (1000, true)) i
          ((fun i => if i < 2 then "should retry" else "should fail") i)).1) :=
  C8_invoke_gives_up_on_denial (fun e : String => e)
    (fun i => if i < 2 then some "should retry" else some "should fail") (fun _ _ => none)
    (fun n err => if 3 ≤ n ∨ err ≠ "should retry" then (0, false) else (1000, true))
    (fun i => if i < 2 then "should retry" else "should fail") 2
    (by intro i _; by_cases h : i < 2 <;> simp [h])
    (by intro i hi; simp only [if_pos hi]; decide)
    (by intro i hi; simp [hi, Nat.not_le.mpr (Nat.lt_succ_of_lt hi)])
    (by intro i _; rfl) (by decide) 10 (by decide)

/-- C9: whenever the retryer approves the retry of attempt `k` (reached
after `k` approved attempts) and the sleep that follows returns a non-nil
error `c`, `Invoke` (given at least `k + 1` units of fuel) returns `c`,
whatever the error of the operation was, and the operation is not called
again: it has been called `k + 1` times. -/
theorem C9_cancellation_supersedes_error {ε : Type} (msg : ε → String)
    (call : Nat → Option ε) (sleep : Nat → Int → Option ε) (r : Nat → ε → Int × Bool)
    (errs : Nat → ε) (k : Nat) (c : ε)
    (hcall : ∀ i, i < k + 1 → call i = some (errs i))
    (hcert : ∀ i, i < k + 1 → v2.stringsContains (msg (errs i)) v2.certMessage = false)
    (hok : ∀ i, i < k + 1 → (r i (errs i)).2 = true)
    (hsleep : ∀ i, i < k → sleep i (r i (errs i)).1 = none)
    (hcancel : sleep k (r k (errs k)).1 = some c)
    (fuel : Nat) (hfuel : k + 1 ≤ fuel) :
    v2.Invoke msg call sleep (some r) fuel =
      some (some c, { calls := k + 1,
                      asked := (List.range (k + 1)).map (fun i => (i, errs i)),
                      slept := (List.range (k + 1)).map (fun i => (r i (errs i)).1) }) := by
  obtain ⟨f, rfl⟩ : ∃ f, fuel = f + 1 + k := ⟨fuel - (k + 1), by omega⟩
  rw [v2.Invoke.approved_run msg call sleep r errs k
    (fun i hi => hcall i (Nat.lt_succ_of_lt hi)) (fun i hi => hcert i (Nat.lt_succ_of_lt hi))
    (fun i hi => hok i (Nat.lt_succ_of_lt hi)) hsleep (f + 1)]
  simp [v2.Invoke.loop, hcall k (Nat.lt_succ_self k), hcert k (Nat.lt_succ_self k),
    hok k (Nat.lt_succ_self k), hcancel, List.range_succ]

/-- Witness of C9 in the manner of `TestBackoffTimeout`: every call fails
with "should retry", the first sleep completes and the second one is
interrupted with "context deadline exceeded". -/
theorem C9_cancellation_supersedes_error_witness :
    v2.Invoke (fun e : String => e) (fun _ => some "should retry")
      (fun i _ => if i < 1 then none else some "context deadline exceeded")
      (some (fun _ _ => (1000, true))) 5 =
      some (some "context deadline exceeded",
        { calls := 1 + 1,
          asked := (List.range (1 + 1)).map (fun i => (i, (fun _ => "should retry") i)),
          slept := (List.range (1 + 1)).map (fun i =>
            ((fun (_ : Nat) (_ : String) => ((1000 : Int), true)) i
              ((fun _ => "should retry") i)).1) }) :=
  C9_cancellation_supersedes_error (fun e : String => e) (fun _ => some "should retry")
    (fun i _ => if i < 1 then none else some "context deadline exceeded")
    (fun _ _ => (1000, true)) (fun _ => "should retry") 1 "context deadline exceeded"
    (by intro i _; rfl)
    (by intro i _; show v2.stringsContains "should retry" v2.certMessage = false; decide)
    (by intro i _; rfl) (by intro i hi; simp [hi]) (by simp) 5 (by decide)

/-- C10: when the operation returns, at any attempt `n` (reached after `n`
approved attempts), an error whose message contains
"x509: certificate signed by unknown authority" and a retryer is
configured, `Invoke` (given at least `n + 1` units of fuel) returns that same
error; the retryer has been asked about attempts `0..n-1` only and the only
sleeps are those of attempts `0..n-1`, whatever the retryer would have
answered for attempt `n`. -/
theorem C10_certificate_error_bypasses_retryer {ε : Type} (msg : ε → String)
    (call : Nat → Option ε) (sleep : Nat → Int → Option ε) (r : Nat → ε → Int × Bool)
    (errs : Nat → ε) (n : Nat) (e : ε)
    (hcall : ∀ i, i < n → call i = some (errs i))
    (hcert : ∀ i, i < n → v2.stringsContains (msg (errs i)) v2.certMessage = false)
    (hok : ∀ i, i < n → (r i (errs i)).2 = true)
    (hsleep : ∀ i, i < n → sleep i (r i (errs i)).1 = none)
    (hlast : call n = some e)
    (hperm : v2.stringsContains (msg e) v2.certMessage = true)
    (fuel : Nat) (hfuel : n + 1 ≤ fuel) :
    v2.Invoke msg call sleep (some r) fuel =
      some (some e, { calls := n + 1,
                      asked := (List.range n).map (fun i => (i, errs i)),
                      slept := (List.range n).map (fun i => (r i (errs i)).1) }) := by
  obtain ⟨f, rfl⟩ : ∃ f, fuel = f + 1 + n := ⟨fuel - (n + 1), by omega⟩
  rw [v2.Invoke.approved_run msg call sleep r errs n hcall hcert hok hsleep (f + 1)]
  simp [v2.Invoke.loop, hlast, hperm]

/-- Witness of C10: the first call fails with "should retry", the second
with a certificate error, and the retryer approves everything. -/
theorem C10_certificate_error_bypasses_retryer_witness :
    v2.Invoke (fun e : String => e)
      (fun i => if i < 1 then some "should retry"
        else some "dial: x509: certificate signed by unknown authority")
      (fun _ _ => none) (some (fun _ _ => (1000, true))) 5 =
      some (some "dial: x509: certificate signed by unknown authority",
        { calls := 1 + 1,
          asked := (List.range 1).map (fun i => (i, (fun _ => "should retry") i)),
          slept := (List.range 1).map (fun i =>
            ((fun (_ : Nat) (_ : String) => ((1000 : Int), true)) i
              ((fun _ => "should retry") i)).1) }) :=
  C10_certificate_error_bypasses_retryer (fun e : String => e)
    (fun i => if i < 1 then some "should retry"
      else some "dial: x509: certificate signed by unknown authority")
    (fun _ _ => none) (fun _ _ => (1000, true)) (fun _ => "should retry") 1
    "dial: x509: certificate signed by unknown authority"
    (by intro i hi; simp [hi])
    (by intro i _; show v2.stringsContains "should retry" v2.certMessage = false; decide)
    (by intro i _; rfl) (by intro i _; rfl) (by simp) (by decide) 5 (by decide)

/-- C11: with no retryer configured, `Invoke` (given at least one unit of
fuel) calls the operation exactly once and returns its result as it is, nil
or the first error, without asking a retryer and without sleeping. -/
theorem C11_invoke_without_retryer {ε : Type} (msg : ε → String)
    (call : Nat → Option ε) (sleep : Nat → Int → Option ε) (fuel : Nat) (hfuel : 1 ≤ fuel) :
    v2.Invoke msg call sleep none fuel =
      some (call 0, { calls := 1, asked := [], slept := [] }) := by
  obtain ⟨f, rfl⟩ : ∃ f, fuel = f + 1 := ⟨fuel - 1, by omega⟩
  cases h : call 0 <;> simp [v2.Invoke, v2.Invoke.loop, h]

/-- Witness of C11: an operation that always fails with "should fail", run
without a retryer. -/
theorem C11_invoke_without_retryer_witness :
    v2.Invoke (fun e : String => e) (fun _ => some "should fail") (fun _ _ => none) none 3 =
      some ((fun _ => some "should fail") 0, { calls := 1, asked := [], slept := [] }) :=
  C11_invoke_without_retryer (fun e : String => e) (fun _ => some "should fail")
    (fun _ _ => none) 3 (by decide)

namespace v2

/-- Where a returned run of the loop stopped: at some attempt `m ≥ n`, after
`m - n + 1` calls, with the result of call `m` or of the sleep of attempt
`m`; the sleeps logged before the run are still in the log. -/
theorem Invoke.loop_result {ε : Type} (msg : ε → String) (call : Nat → Option ε)
    (sleep : Nat → Int → Option ε) (retryer : Option (Nat → ε → Int × Bool)) :
    ∀ (fuel n : Nat) (log : Log ε) (ret : Option ε) (log2 : Log ε),
      Invoke.loop msg call sleep retryer fuel n log = some (ret, log2) →
      log.slept.length ≤ log2.slept.length ∧
      ∃ m, n ≤ m ∧ log2.calls + n = log.calls + m + 1 ∧
        ((ret = none ∧ call m = none) ∨ (∃ e, ret = some e ∧ call m = some e) ∨
          (∃ r e c, retryer = some r ∧ call m = some e ∧ (r m e).2 = true ∧
            sleep m (r m e).1 = some c ∧ ret = some c)) := by
  intro fuel
  induction fuel with
  | zero => intro n log ret log2 h; simp [Invoke.loop] at h
  | succ fuel ih =>
    intro n log ret log2 h
    rw [Invoke.loop] at h
    cases hc : call n with
    | none =>
      simp only [hc, Option.some.injEq, Prod.mk.injEq] at h
      obtain ⟨h1, h2⟩ := h
      subst h1 h2
      exact ⟨by simp, n, le_refl n, by simp; omega, Or.inl ⟨rfl, hc⟩⟩
    | some err =>
      cases hr : retryer with
      | none =>
        simp only [hc, hr, Option.some.injEq, Prod.mk.injEq] at h
        obtain ⟨h1, h2⟩ := h
        subst h1 h2
        exact ⟨by simp, n, le_refl n, by simp; omega, Or.inr (Or.inl ⟨err, rfl, hc⟩)⟩
      | some r =>
        subst hr
        simp only [hc] at h
        by_cases hcert : stringsContains (msg err) certMessage = true
        · simp only [hcert, if_true, Option.some.injEq, Prod.mk.injEq] at h
          obtain ⟨h1, h2⟩ := h
          subst h1 h2
          exact ⟨by simp, n, le_refl n, by simp; omega, Or.inr (Or.inl ⟨err, rfl, hc⟩)⟩
        · have hcert2 : stringsContains (msg err) certMessage = false := by simpa using hcert
          by_cases hok : (r n err).2 = true
          · cases hs : sleep n (r n err).1 with
            | some c =>
              simp [hcert2, hok, hs] at h
              obtain ⟨h1, h2⟩ := h
              subst h1 h2
              exact ⟨by simp, n, le_refl n, by simp; omega,
                Or.inr (Or.inr ⟨r, err, c, rfl, hc, hok, hs, rfl⟩)⟩
            | none =>
              simp [hcert2, hok, hs] at h
              obtain ⟨hsl, m, hm, hcalls, hres⟩ := ih (n + 1) _ ret log2 h
              simp only [List.length_append, List.length_singleton] at hsl hcalls
              exact ⟨by omega, m, by omega, by omega, hres⟩
          · have hok2 : (r n err).2 = false := by simpa using hok
            simp [hcert2, hok2] at h
            obtain ⟨h1, h2⟩ := h
            subst h1 h2
            exact ⟨by simp, n, le_refl n, by simp; omega, Or.inr (Or.inl ⟨err, rfl, hc⟩)⟩

end v2

/-- C12: in every run of `Invoke` that returns, the returned value is nil
and the last call of the operation returned nil, or it is the error the last
call of the operation returned, unchanged, or it is the error returned by
the sleep that followed the last call (after an approved retry).  The last
call is call number `log.calls`, the one of attempt `log.calls - 1`. -/
theorem C12_invoke_returns_one_of_three {ε : Type} (msg : ε → String)
    (call : Nat → Option ε) (sleep : Nat → Int → Option ε)
    (retryer : Option (Nat → ε → Int × Bool)) (fuel : Nat) (ret : Option ε) (log : v2.Log ε)
    (h : v2.Invoke msg call sleep retryer fuel = some (ret, log)) :
    1 ≤ log.calls ∧
      ((ret = none ∧ call (log.calls - 1) = none) ∨
        (∃ e, ret = some e ∧ call (log.calls - 1) = some e) ∨
        (∃ r e c, retryer = some r ∧ call (log.calls - 1) = some e ∧
          (r (log.calls - 1) e).2 = true ∧
          sleep (log.calls - 1) (r (log.calls - 1) e).1 = some c ∧ ret = some c)) := by
  obtain ⟨_, m, _, hcalls, hres⟩ := v2.Invoke.loop_result msg call sleep retryer fuel 0 _ ret log h
  simp only [add_zero, zero_add] at hcalls
  have hm : log.calls - 1 = m := by omega
  rw [hm]
  exact ⟨by omega, hres⟩

/-- Witness of C12: the first call fails with "should retry" and is retried,
the second fails with "should fail" and the retry is denied; `Invoke`
returns "should fail", the error of the second and last call. -/
theorem C12_invoke_returns_one_of_three_witness :
    1 ≤ (2 : Nat) ∧
      (((some "should fail" : Option String) = none ∧
          (fun i => if i < 1 then some "should retry" else some "should fail") (2 - 1) = none) ∨
        (∃ e, (some "should fail" : Option String) = some e ∧
          (fun i => if i < 1 then some "should retry" else some "should fail") (2 - 1) = some e) ∨
        (∃ r e c, some (fun (_ : Nat) (err : String) =>
              if err ≠ "should retry" then ((0 : Int), false) else (1000, true)) = some r ∧
          (fun i => if i < 1 then some "should retry" else some "should fail") (2 - 1) = some e ∧
          (r (2 - 1) e).2 = true ∧
          (fun (_ : Nat) (_ : Int) => (none : Option String)) (2 - 1) (r (2 - 1) e).1 = some c ∧
          (some "should fail" : Option String) = some c)) :=
  C12_invoke_returns_one_of_three (fun e : String => e)
    (fun i => if i < 1 then some "should retry" else some "should fail") (fun _ _ => none)
    (some (fun _ err => if err ≠ "should retry" then (0, false) else (1000, true))) 5
    (some "should fail")
    { calls := 2, asked := [(0, "should retry"), (1, "should fail")], slept := [1000] } rfl

namespace v2

/-- A run of the loop that returns ends with the log that `Invoke.logAfter`
computes for the same fuel. -/
theorem Invoke.loop_logAfter {ε : Type} (msg : ε → String) (call : Nat → Option ε)
    (sleep : Nat → Int → Option ε) (retryer : Option (Nat → ε → Int × Bool)) :
    ∀ (fuel n : Nat) (log : Log ε) (ret : Option ε) (log2 : Log ε),
      Invoke.loop msg call sleep retryer fuel n log = some (ret, log2) →
      Invoke.logAfter msg call sleep retryer fuel n log = log2 := by
  intro fuel
  induction fuel with
  | zero => intro n log ret log2 h; simp [Invoke.loop] at h
  | succ fuel ih =>
    intro n log ret log2 h
    rw [Invoke.loop] at h
    rw [Invoke.logAfter]
    cases hc : call n with
    | none =>
      simp only [hc, Option.some.injEq, Prod.mk.injEq] at h
      exact h.2
    | some err =>
      cases hr : retryer with
      | none =>
        simp only [hc, hr, Option.some.injEq, Prod.mk.injEq] at h
        exact h.2
      | some r =>
        subst hr
        simp only [hc] at h ⊢
        by_cases hcert : stringsContains (msg err) certMessage = true
        · simp only [hcert, if_true, Option.some.injEq, Prod.mk.injEq] at h ⊢
          exact h.2
        · have hcert2 : stringsContains (msg err) certMessage = false := by simpa using hcert
          by_cases hok : (r n err).2 = true
          · cases hs : sleep n (r n err).1 with
            | some c =>
              simp [hcert2, hok, hs] at h ⊢
              exact h.2
            | none =>
              simp [hcert2, hok, hs] at h ⊢
              exact ih (n + 1) _ ret log2 h
          · have hok2 : (r n err).2 = false := by simpa using hok
            simp [hcert2, hok2] at h ⊢
            exact h.2

/-- The calls to the retryer logged so far are `(0, e₀), …, (m-1, eₘ₋₁)` for
some `m`, each `eᵢ` being the error that call `i` of the operation
returned; the loop keeps this from attempt `n` on. -/
theorem Invoke.logAfter_asked {ε : Type} (msg : ε → String) (call : Nat → Option ε)
    (sleep : Nat → Int → Option ε) (retryer : Option (Nat → ε → Int × Bool)) :
    ∀ (fuel n : Nat) (log : Log ε),
      log.asked.map Prod.fst = List.range n → (∀ p, p ∈ log.asked → call p.1 = some p.2) →
      ∃ m, (Invoke.logAfter msg call sleep retryer fuel n log).asked.map Prod.fst = List.range m ∧
        ∀ p, p ∈ (Invoke.logAfter msg call sleep retryer fuel n log).asked →
          call p.1 = some p.2 := by
  intro fuel
  induction fuel with
  | zero => intro n log h1 h2; exact ⟨n, by simpa [Invoke.logAfter] using h1,
      by simpa [Invoke.logAfter] using h2⟩
  | succ fuel ih =>
    intro n log h1 h2
    rw [Invoke.logAfter]
    have hext : ∀ err, call n = some err →
        (log.asked ++ [(n, err)]).map Prod.fst = List.range (n + 1) ∧
        ∀ p, p ∈ log.asked ++ [(n, err)] → call p.1 = some p.2 := by
      intro err hc
      constructor
      · simp [List.range_succ, h1]
      · intro p hp
        rcases List.mem_append.mp hp with hp | hp
        · exact h2 p hp
        · simp only [List.mem_singleton] at hp
          subst hp
          exact hc
    cases hc : call n with
    | none => exact ⟨n, h1, h2⟩
    | some err =>
      cases hr : retryer with
      | none => exact ⟨n, h1, h2⟩
      | some r =>
        subst hr
        simp only []
        by_cases hcert : stringsContains (msg err) certMessage = true
        · simp only [hcert, if_true]
          exact ⟨n, h1, h2⟩
        · have hcert2 : stringsContains (msg err) certMessage = false := by simpa using hcert
          by_cases hok : (r n err).2 = true
          · cases hs : sleep n (r n err).1 with
            | some c =>
              simp only [hcert2, hok, hs]
              exact ⟨n + 1, by simpa using (hext err hc).1, by simpa using (hext err hc).2⟩
            | none =>
              simp only [hcert2, hok, hs]
              simpa using ih (n + 1)
                { calls := log.calls + 1, asked := log.asked ++ [(n, err)],
                  slept := log.slept ++ [(r n err).1] } (hext err hc).1 (hext err hc).2
          · have hok2 : (r n err).2 = false := by simpa using hok
            simp only [hcert2, hok2]
            exact ⟨n + 1, by simpa using (hext err hc).1, by simpa using (hext err hc).2⟩

end v2

/-- C13: the calls `Invoke` makes to the retryer are, in order,
`retryer(0, e₀), retryer(1, e₁), …`: the first has `n = 0`, `n` grows by
exactly one from each call to the next, and the error passed with `n` is the
non-nil error that call `n + 1` of the operation (the one of attempt `n`)
returned.  This holds for the log after any number of iterations, returned
or not, and so for the log of every run that returns. -/
theorem C13_retryer_called_with_attempt_and_its_error {ε : Type} (msg : ε → String)
    (call : Nat → Option ε) (sleep : Nat → Int → Option ε)
    (retryer : Option (Nat → ε → Int × Bool)) :
    (∀ fuel : Nat,
      (v2.Invoke.logAfter msg call sleep retryer fuel 0
          { calls := 0, asked := [], slept := [] }).asked.map Prod.fst =
        List.range (v2.Invoke.logAfter msg call sleep retryer fuel 0
          { calls := 0, asked := [], slept := [] }).asked.length ∧
      ∀ p, p ∈ (v2.Invoke.logAfter msg call sleep retryer fuel 0
          { calls := 0, asked := [], slept := [] }).asked → call p.1 = some p.2) ∧
    (∀ (fuel : Nat) (ret : Option ε) (log : v2.Log ε),
      v2.Invoke msg call sleep retryer fuel = some (ret, log) →
      log.asked.map Prod.fst = List.range log.asked.length ∧
      ∀ p, p ∈ log.asked → call p.1 = some p.2) := by
  have key : ∀ fuel : Nat,
      (v2.Invoke.logAfter msg call sleep retryer fuel 0
          { calls := 0, asked := [], slept := [] }).asked.map Prod.fst =
        List.range (v2.Invoke.logAfter msg call sleep retryer fuel 0
          { calls := 0, asked := [], slept := [] }).asked.length ∧
      ∀ p, p ∈ (v2.Invoke.logAfter msg call sleep retryer fuel 0
          { calls := 0, asked := [], slept := [] }).asked → call p.1 = some p.2 := by
    intro fuel
    obtain ⟨m, h1, h2⟩ := v2.Invoke.logAfter_asked msg call sleep retryer fuel 0
      { calls := 0, asked := [], slept := [] } (by simp) (by simp)
    have hlen := congrArg List.length h1
    simp only [List.length_map, List.length_range] at hlen
    rw [hlen]
    exact ⟨h1, h2⟩
  refine ⟨key, ?_⟩
  intro fuel ret log h
  have hlog := v2.Invoke.loop_logAfter msg call sleep retryer fuel 0 _ ret log h
  rw [← hlog]
  exact key fuel

/-- C18: cancellation reaches `Invoke` only through the result of `Sleep`.
A run that returns has called the operation at least once; a run that
returns without having slept returns the same with any other behaviour of
`Sleep`; and whatever `Sleep` would do (an already-cancelled context
included), `Invoke` returns nil when the first call succeeds and returns the
error of the first call when it fails and the retryer is nil or denies the
retry. -/
theorem C18_cancellation_only_at_sleep {ε : Type} (msg : ε → String)
    (call : Nat → Option ε) (sleep sleep2 : Nat → Int → Option ε)
    (retryer : Option (Nat → ε → Int × Bool)) (fuel : Nat) (hfuel : 1 ≤ fuel) :
    (∀ ret log, v2.Invoke msg call sleep retryer fuel = some (ret, log) → 1 ≤ log.calls) ∧
    (∀ ret log, v2.Invoke msg call sleep retryer fuel = some (ret, log) → log.slept = [] →
      v2.Invoke msg call sleep2 retryer fuel = some (ret, log)) ∧
    (call 0 = none →
      v2.Invoke msg call sleep retryer fuel =
        some (none, { calls := 1, asked := [], slept := [] })) ∧
    (∀ e, call 0 = some e →
      (retryer = none ∨ ∃ r, retryer = some r ∧ (r 0 e).2 = false) →
      ∃ log, v2.Invoke msg call sleep retryer fuel = some (some e, log) ∧
        log.calls = 1 ∧ log.slept = []) := by
  obtain ⟨f, rfl⟩ : ∃ f, fuel = f + 1 := ⟨fuel - 1, by omega⟩
  refine ⟨?_, ?_, ?_, ?_⟩
  · intro ret log h
    obtain ⟨_, m, _, hcalls, _⟩ := v2.Invoke.loop_result msg call sleep retryer (f + 1) 0 _ ret log h
    simp only [add_zero, zero_add] at hcalls
    omega
  · intro ret log h hslept
    simp only [v2.Invoke] at h ⊢
    rw [v2.Invoke.loop] at h ⊢
    cases hc : call 0 with
    | none => simpa [hc] using h
    | some err =>
      cases hr : retryer with
      | none => simpa [hc, hr] using h
      | some r =>
        subst hr
        simp only [hc] at h ⊢
        by_cases hcert : v2.stringsContains (msg err) v2.certMessage = true
        · simpa [hcert] using h
        · have hcert2 : v2.stringsContains (msg err) v2.certMessage = false := by
            simpa using hcert
          by_cases hok : (r 0 err).2 = true
          · exfalso
            cases hs : sleep 0 (r 0 err).1 with
            | some c =>
              simp [hcert2, hok, hs] at h
              rw [← h.2] at hslept
              simp at hslept
            | none =>
              simp [hcert2, hok, hs] at h
              have hlen := (v2.Invoke.loop_result msg call sleep (some r) f 1 _ ret log h).1
              rw [hslept] at hlen
              simp at hlen
          · have hok2 : (r 0 err).2 = false := by simpa using hok
            simpa [hcert2, hok2] using h
  · intro hc
    simp [v2.Invoke, v2.Invoke.loop, hc]
  · intro e hc hden
    rcases hden with hr | ⟨r, hr, hno⟩
    · subst hr
      exact ⟨{ calls := 1, asked := [], slept := [] },
        by simp [v2.Invoke, v2.Invoke.loop, hc], rfl, rfl⟩
    · subst hr
      by_cases hcert : v2.stringsContains (msg e) v2.certMessage = true
      · exact ⟨{ calls := 1, asked := [], slept := [] },
          by simp [v2.Invoke, v2.Invoke.loop, hc, hcert], rfl, rfl⟩
      · exact ⟨{ calls := 1, asked := [(0, e)], slept := [] },
          by simp [v2.Invoke, v2.Invoke.loop, hc, hcert, hno], rfl, rfl⟩

/-- Witness of C18 with a `Sleep` that always reports a cancelled context:
a first call that succeeds gives nil, and a first call that fails with a
denied retry gives the error of the operation. -/
theorem C18_cancellation_only_at_sleep_witness :
    v2.Invoke (fun e : String => e) (fun _ => none) (fun _ _ => some "context canceled")
        (some (fun _ _ => (1000, true))) 3 =
      some (none, { calls := 1, asked := [], slept := [] }) ∧
    ∃ log, v2.Invoke (fun e : String => e) (fun _ => some "should fail")
        (fun _ _ => some "context canceled") (some (fun _ _ => (0, false))) 3 =
        some (some "should fail", log) ∧ log.calls = 1 ∧ log.slept = [] :=
  ⟨(C18_cancellation_only_at_sleep (fun e : String => e) (fun _ => none)
      (fun _ _ => some "context canceled") (fun _ _ => none)
      (some (fun _ _ => (1000, true))) 3 (by decide)).2.2.1 rfl,
    (C18_cancellation_only_at_sleep (fun e : String => e) (fun _ => some "should fail")
      (fun _ _ => some "context canceled") (fun _ _ => none)
      (some (fun _ _ => (0, false))) 3 (by decide)).2.2.2 "should fail" rfl
      (Or.inr ⟨_, rfl, rfl⟩)⟩


end backoff
